import Mathlib

/-!
Verification of the podcast exporter (`exporter/main.go`).

A shallow embedding of the exporter's pure logic (catalog construction, title and
file-name parsing, reconciliation of feed items with the catalog, selection of the
episodes to render) together with theorems about it.

Conventions of the embedding.

* A Go `string` is a sequence of bytes.  It is represented by `GoString = List Char`,
  each `Char` standing for the byte with the same code; ASCII text is therefore written
  as usual (`"3-jane-doe.mp3".toList`).
* A Go call that may panic returns `Except Panic _`.
* Go's `int` is a signed integer of `intSize` bits (`strconv.IntSize`, 32 or 64); values
  are `Int`s and the range checks of `strconv` are explicit.
* Functions of the Go standard library whose result the program depends on are modelled
  after the library's implementation (`strings`, `strconv`) or taken from an environment
  `Env` constrained by the library's documented contract (`sort.Sort`, `time.Parse`).
-/

namespace Exporter

/-! ## Go runtime and standard library -/

/-- A Go string, byte by byte. -/
abbrev GoString := List Char

/-- The run-time panics the program can raise. -/
inductive Panic where
  /-- The panic `index out of range` of an access `xs[i]`. -/
  | indexOutOfRange
  /-- The panic `slice bounds out of range` of a slicing `s[i:]`. -/
  | sliceBoundsOutOfRange
  /-- The call `panic(err)` on the error of `time.Parse`. -/
  | timeParseError
  deriving DecidableEq, Repr

/-- The two errors of `strconv`: `ErrSyntax` and `ErrRange`. -/
inductive NumError where
  | ErrSyntax
  | ErrRange
  deriving DecidableEq, Repr

deriving instance DecidableEq for Except

/-- Go indexing `xs[i]` with the run-time bounds check. -/
def goIndex {α : Type} (xs : List α) (i : Int) : Except Panic α :=
  if i < 0 then .error .indexOutOfRange
  else
    match xs.get? i.toNat with
    | some x => .ok x
    | none => .error .indexOutOfRange

/-- Go slicing `s[i:]` of a string with the run-time bounds check. -/
def goSliceFrom (s : GoString) (i : Nat) : Except Panic GoString :=
  if i ≤ s.length then .ok (s.drop i) else .error .sliceBoundsOutOfRange

/-- Go `strings.Contains(s, sep)` for a one-byte `sep`. -/
def stringsContains (s : GoString) (sep : Char) : Bool :=
  s.any (fun c => c == sep)

/-- Go `strings.Split(s, sep)` for a one-byte `sep`: the pieces of `s` between the
occurrences of `sep`; always at least one piece. -/
def stringsSplit : GoString → Char → List GoString
  | [], _ => [[]]
  | c :: cs, sep =>
    if c = sep then [] :: stringsSplit cs sep
    else
      match stringsSplit cs sep with
      | [] => [[c]]
      | p :: ps => (c :: p) :: ps

/-- Go `strings.Trim(s, cutset)` for an ASCII `cutset`: drops the leading and the trailing
bytes that occur in `cutset`. -/
def stringsTrim (s cutset : GoString) : GoString :=
  ((s.dropWhile (fun c => cutset.contains c)).reverse.dropWhile
    (fun c => cutset.contains c)).reverse

/-- Go `strings.ReplaceAll(s, old, new)` for a one-byte `old`: the non-overlapping
occurrences of `old`, left to right, are replaced by `new`. -/
def stringsReplaceAll : GoString → Char → GoString → GoString
  | [], _, _ => []
  | c :: cs, old, new =>
    if c = old then new ++ stringsReplaceAll cs old new
    else c :: stringsReplaceAll cs old new

/-- The largest `uint64`. -/
def maxUint64 : Nat := 2 ^ 64 - 1

/-- The digit loop of `strconv.ParseUint(s, 10, 0)`: `n` is the accumulator and `maxVal`
is `1<<bitSize - 1`.  A byte that is not a decimal digit is a syntax error; an overflow of
`n*10` (`n >= cutoff`) or of `n*10 + d` is a range error reported at once, with `maxVal`
as value. -/
def parseUintLoop (maxVal : Nat) : GoString → Nat → Nat × Option NumError
  | [], n => (n, none)
  | c :: cs, n =>
    if c.isDigit then
      let d := c.toNat - '0'.toNat
      if n ≥ maxUint64 / 10 + 1 then (maxVal, some .ErrRange)
      else
        let n10 := n * 10
        let n1 := (n10 + d) % 2 ^ 64
        if n1 < n10 ∨ n1 > maxVal then (maxVal, some .ErrRange)
        else parseUintLoop maxVal cs n1
    else (0, some .ErrSyntax)

/-- Go `strconv.ParseUint(s, 10, 0)` on a platform whose `int` has `intSize` bits. -/
def ParseUint (intSize : Nat) (s : GoString) : Nat × Option NumError :=
  if s = [] then (0, some .ErrSyntax)
  else parseUintLoop (2 ^ intSize - 1) s 0

/-- Go `strconv.ParseInt(s, 10, 0)` on a platform whose `int` has `intSize` bits. -/
def ParseInt (intSize : Nat) (s : GoString) : Int × Option NumError :=
  match s with
  | [] => (0, some .ErrSyntax)
  | c0 :: rest =>
    let neg := c0 = '-'
    let body := if c0 = '+' ∨ c0 = '-' then rest else s
    match ParseUint intSize body with
    | (_, some .ErrSyntax) => (0, some .ErrSyntax)
    | (un, _) =>
      let cutoff := 2 ^ (intSize - 1)
      if ¬ neg ∧ un ≥ cutoff then (((cutoff - 1 : Nat) : Int), some .ErrRange)
      else if neg ∧ un > cutoff then (-(cutoff : Int), some .ErrRange)
      else (if neg then -(un : Int) else (un : Int), none)

/-- The digit loop of the fast path of `strconv.Atoi`: no range check is needed there,
the input being too short to overflow. -/
def atoiFastLoop : GoString → Int → Int × Option NumError
  | [], n => (n, none)
  | ch :: cs, n =>
    if ch.isDigit then atoiFastLoop cs (n * 10 + ((ch.toNat - '0'.toNat : Nat) : Int))
    else (0, some .ErrSyntax)

/-- Go `strconv.Atoi(s)` on a platform whose `int` has `intSize` bits: a fast path for
short inputs, `ParseInt(s, 10, 0)` otherwise.  On a syntax error the value is `0`, on a
range error it is the nearest representable `int`. -/
def Atoi (intSize : Nat) (s : GoString) : Int × Option NumError :=
  let sLen := s.length
  if (intSize = 32 ∧ 0 < sLen ∧ sLen < 10) ∨ (intSize = 64 ∧ 0 < sLen ∧ sLen < 19) then
    match s with
    | [] => (0, some .ErrSyntax)
    | c0 :: rest =>
      if (c0 = '-' ∨ c0 = '+') ∧ rest.length < 1 then (0, some .ErrSyntax)
      else
        let body := if c0 = '-' ∨ c0 = '+' then rest else s
        match atoiFastLoop body 0 with
        | (_, some e) => (0, some e)
        | (n, none) => (if c0 = '-' then -n else n, none)
  else ParseInt intSize s

/-- Go `fmt.Sprintf("%v", n)` for an `int`. -/
def formatInt (n : Int) : GoString :=
  if n < 0 then '-' :: Nat.toDigits 10 n.natAbs else Nat.toDigits 10 n.toNat

/-! ## The program: data model -/

/-- The `Contents` element of the bucket listing. -/
structure Content where
  Key : GoString
  LastModified : GoString
  ETag : GoString
  Size : GoString
  deriving DecidableEq, Repr

/-- The struct `Audio`. -/
structure Audio where
  Number : Int
  Name : GoString
  deriving DecidableEq, Repr

/-! ## The program: parsing helpers -/

/-- The function `getGuestName`. -/
def getGuestName (audio : GoString) : Except Panic (GoString × Option NumError) := do
  let parts := stringsSplit audio '.'
  let parts0 ← goIndex parts 0
  let words := stringsSplit parts0 '-'
  let w2 ← goIndex words ((words.length : Int) - 2)
  let w1 ← goIndex words ((words.length : Int) - 1)
  return (w2 ++ "-".toList ++ w1, none)

/-- The function `getNumber`. -/
def getNumber (intSize : Nat) (title : GoString) : Except Panic (Int × Option NumError) := do
  let parts := stringsSplit title '-'
  let parts0 ← goIndex parts 0
  let numberPart := stringsTrim parts0 " ".toList
  let tail ← goSliceFrom numberPart 1
  match Atoi intSize tail with
  | (_, some err) => return (0, some err)
  | (number, none) => return (number, none)

/-- The function `AudioList.Less`, on the two elements at the indices it is given. -/
def AudioList.Less (a b : Audio) : Bool :=
  decide (a.Number < b.Number)

/-- The `item` element of the feed. -/
structure Item where
  Title : GoString
  Link : GoString
  Description : GoString
  PubDate : GoString
  Guid : GoString
  Duration : GoString
  Author : GoString
  Explicit : GoString
  Summary : GoString
  Subtitle : GoString
  deriving DecidableEq, Repr

/-- The struct `Episode`. -/
structure Episode where
  Number : Int
  Title : GoString
  Date : GoString
  Guid : GoString
  Guest : GoString
  Audio : GoString
  Description : GoString
  Content : GoString
  deriving DecidableEq, Repr

/-- The function `Episodes.Less`, on the two elements at the indices it is given. -/
def Episodes.Less (a b : Episode) : Bool :=
  decide (a.Number < b.Number)

/-- A file created by the renderer: `os.Remove`, `os.Create` and the execution of the
template on the new file. -/
structure FileWrite where
  path : GoString
  content : GoString
  deriving DecidableEq, Repr

/-- What a run leaves behind: the files written, in order, and the panic that ended the
run, if any. -/
structure RunResult where
  written : List FileWrite
  panic : Option Panic
  deriving DecidableEq, Repr

/-! ## The environment of a run -/

/-- The platform and the library functions the program is linked with.

* `intSize` is the width of `int` (`strconv.IntSize`);
* `sortSort less xs` is the slice after `sort.Sort` on a slice holding `xs` whose `Less`
  compares the elements with `less` (the order of equal elements is the library's choice);
* `timeParse s` is `time.Parse(dateFormat, s)` followed by `Format("2006-01-02")`, and
  `none` when `time.Parse` returns an error. -/
structure Env where
  intSize : Nat
  sortSort : {α : Type} → (α → α → Bool) → List α → List α
  timeParse : GoString → Option GoString

/-- The documented contract of the environment: `int` has 32 or 64 bits, and `sort.Sort`
permutes the slice and leaves it in ascending order of the compared key. -/
structure Env.Conforms (env : Env) : Prop where
  intSize_eq : env.intSize = 32 ∨ env.intSize = 64
  sort_perm : ∀ {α : Type} (less : α → α → Bool) (xs : List α),
    (env.sortSort less xs).Perm xs
  sort_sorted : ∀ {α : Type} (key : α → Int) (xs : List α),
    (env.sortSort (fun a b => decide (key a < key b)) xs).Pairwise
      (fun a b => key a ≤ key b)

/-! ## The program -/

/-- The loop of `fetchAudioList` over `xmlBucket.Contents`, `audioList` being the slice
built so far. -/
def fetchAudioLoop (intSize : Nat) : List Content → List Audio → List Audio
  | [], audioList => audioList
  | content :: rest, audioList =>
    if !stringsContains content.Key '-' then fetchAudioLoop intSize rest audioList
    else
      match stringsSplit content.Key '-' with
      | [] => fetchAudioLoop intSize rest audioList
      | parts0 :: _ =>
        let audioNumber := (Atoi intSize parts0).1
        let audio : Audio := { Number := audioNumber, Name := content.Key }
        fetchAudioLoop intSize rest (audioList ++ [audio])

/-- The function `fetchAudioList`, from the parsed bucket listing on. -/
def fetchAudioList (env : Env) (contents : List Content) : List Audio :=
  env.sortSort AudioList.Less (fetchAudioLoop env.intSize contents [])

/-- The body of the reconciliation loop of `main` for one feed item. -/
def reconcileItem (env : Env) (audioList : List Audio) (item : Item) :
    Except Panic Episode := do
  let (number, _) ← getNumber env.intSize item.Title
  match env.timeParse item.PubDate with
  | none => throw Panic.timeParseError
  | some date =>
    let audio ← goIndex audioList number
    let (guest, _) ← getGuestName audio.Name
    let htmlContent := stringsReplaceAll item.Description '\n' "\n\n".toList
    let audio2 ← goIndex audioList number
    return {
      Number := number
      Title := item.Title
      Date := date
      Guid := item.Guid
      Guest := guest
      Audio := audio2.Name
      Description := item.Title
      Content := htmlContent }

/-- The reconciliation loop of `main` over `rss.Channel.Items`, `episodes` being the slice
built so far. -/
def reconcileLoop (env : Env) (audioList : List Audio) :
    List Item → List Episode → Except Panic (List Episode)
  | [], episodes => .ok episodes
  | item :: rest, episodes =>
    match reconcileItem env audioList item with
    | .error p => .error p
    | .ok episode => reconcileLoop env audioList rest (episodes ++ [episode])

/-- The execution of the template `layoutHeader` on an episode. -/
def renderTemplate (e : Episode) : GoString :=
  "---\nlayout: episode\ntitle: \"".toList ++ e.Title ++
  "\"\ndate: ".toList ++ e.Date ++
  "\npeople:\n  - volyx\n  - ".toList ++ e.Guest ++
  "\naudio: ".toList ++ e.Audio ++
  "\nguid: ".toList ++ e.Guid ++
  "\nimage: images/logo.png\ndescription: ".toList ++ e.Description ++
  "\ndraft: false\n---\n\n".toList ++ e.Content

/-- The path `filepath.Join(episodeDir, fmt.Sprintf("%v.md", episode.Number))` where `/`
separates the elements of a path.  In `main` the directory `episodeDir` is itself the
result of `filepath.Join` on an absolute path, hence clean and not the root, so that the
join only puts the separator between the two. -/
def episodePath (episodeDir : GoString) (e : Episode) : GoString :=
  episodeDir ++ "/".toList ++ formatInt e.Number ++ ".md".toList

/-- The rendering loop of `main`: `rest` is `episodes[i:]` and `written` the files
written so far. -/
def renderLoop (episodeDir : GoString) (limit : Nat) :
    List Episode → Nat → List FileWrite → List FileWrite
  | [], _, written => written
  | episode :: rest, i, written =>
    if i < limit then
      renderLoop episodeDir limit rest (i + 1)
        (written ++ [{ path := episodePath episodeDir episode,
                       content := renderTemplate episode }])
    else written

/-- The function `main`, from the parsed bucket listing and feed to the end of the
rendering loop.  In the source `limit` is fixed to `5`. -/
def main (env : Env) (episodeDir : GoString) (limit : Nat)
    (contents : List Content) (items : List Item) : RunResult :=
  let audioList := fetchAudioList env contents
  match reconcileLoop env audioList items [] with
  | .error p => { written := [], panic := some p }
  | .ok episodes =>
    let episodes := env.sortSort Episodes.Less episodes
    { written := renderLoop episodeDir limit episodes 0 [], panic := none }

/-! ## A reference environment -/

/-- The value of a two-digit field of a time stamp. -/
def twoDigits (a b : Char) : Option Nat :=
  if a.isDigit ∧ b.isDigit then some ((a.toNat - 48) * 10 + (b.toNat - 48)) else none

/-- The number of days of month `m` (1 to 12) of year `y`. -/
def daysIn (m y : Nat) : Nat :=
  if m = 2 then (if y % 4 = 0 ∧ (y % 100 ≠ 0 ∨ y % 400 = 0) then 29 else 28)
  else if m = 4 ∨ m = 6 ∨ m = 9 ∨ m = 11 then 30 else 31

/-- The number (1 to 12) of a month from its three-letter English name. -/
def monthNumber (name : GoString) : Option Nat :=
  let i := ["Jan", "Feb", "Mar", "Apr", "May", "Jun", "Jul", "Aug", "Sep", "Oct", "Nov",
    "Dec"].indexOf (String.mk name)
  if i < 12 then some (i + 1) else none

/-- A reference `timeParse`: the stamps written exactly in the layout
`Mon, 02 Jan 2006 15:04:05 -0700` (fixed widths, English names, fields in range) give their
calendar date as `2006-01-02`, as in Go.  Every other string is rejected here; among them
Go rejects the empty string too, and accepts a few variants (a one-digit hour, fractional
seconds, names in another letter case) that no concrete run below uses. -/
def refTimeParse (s : GoString) : Option GoString :=
  if s.length ≠ 31 then none
  else
    let wd := String.mk (s.take 3)
    let sepsOk := s.get? 3 = some ',' ∧ s.get? 4 = some ' ' ∧ s.get? 7 = some ' ' ∧
      s.get? 11 = some ' ' ∧ s.get? 16 = some ' ' ∧ s.get? 19 = some ':' ∧
      s.get? 22 = some ':' ∧ s.get? 25 = some ' ' ∧
      (s.get? 26 = some '+' ∨ s.get? 26 = some '-')
    let field (i : Nat) : Option Nat := twoDigits (s.getD i ' ') (s.getD (i + 1) ' ')
    match monthNumber ((s.drop 8).take 3), field 5, field 12, field 14, field 17,
      field 20, field 23, field 27, field 29 with
    | some month, some day, some yHi, some yLo, some hour, some min, some sec,
      some zh, some zm =>
      if wd ∈ ["Sun", "Mon", "Tue", "Wed", "Thu", "Fri", "Sat"] ∧ sepsOk ∧
          1 ≤ day ∧ day ≤ daysIn month (yHi * 100 + yLo) ∧
          hour < 24 ∧ min < 60 ∧ sec < 60 ∧ zh < 24 ∧ zm < 60 then
        some ((s.drop 12).take 4 ++ "-".toList ++
          (if month < 10 then "0".toList else []) ++ Nat.toDigits 10 month ++
          "-".toList ++ (s.drop 5).take 2)
      else none
    | _, _, _, _, _, _, _, _, _ => none

/-- The function `insertionSort` of package `sort` on one element: `x`, appended to the
ascending slice `ys`, is swapped leftwards while it is less than its left neighbour. -/
def insertLast {α : Type} (less : α → α → Bool) (x : α) : List α → List α
  | [] => [x]
  | y :: ys =>
    if (y :: ys).all (fun z => less x z) then x :: y :: ys
    else y :: insertLast less x ys

/-- The function `insertionSort` of package `sort`, which is what `sort.Sort` runs on a
slice of at most 12 elements.  The concrete runs below sort slices whose numbers are
pairwise distinct, on which every sort that meets the contract gives the same result. -/
def insertionSort {α : Type} (less : α → α → Bool) (xs : List α) : List α :=
  xs.foldl (fun sorted x => insertLast less x sorted) []

/-- The reference environment: a 64-bit platform, insertion sort, the reference
`timeParse`. -/
def refEnv : Env where
  intSize := 64
  sortSort := insertionSort
  timeParse := refTimeParse

/-! ## Notions used in the statements -/

/-- The number denoted by the decimal digits `ds` read after the digits of `n`. -/
def decimalFold (ds : GoString) (n : Nat) : Nat :=
  ds.foldl (fun acc c => acc * 10 + (c.toNat - '0'.toNat)) n

/-- The base-10 value of a run of decimal digits. -/
def decimalValue (ds : GoString) : Nat :=
  decimalFold ds 0

/-- A decimal numeral: one or more decimal digits. -/
def IsDecimal (ds : GoString) : Prop :=
  ds ≠ [] ∧ ∀ c ∈ ds, c.isDigit = true

/-- The text `t` without its optional leading `+`. -/
def unsignedPart (t : GoString) : GoString :=
  match t with
  | [] => []
  | c :: r => if c = '+' then r else c :: r

/-- The part of `s` before its first byte `sep` (all of `s` when there is none). -/
def textBefore (sep : Char) (s : GoString) : GoString :=
  s.takeWhile (fun c => c != sep)

instance (ds : GoString) : Decidable (IsDecimal ds) := by
  unfold IsDecimal
  infer_instance

/-- The text `s` with every newline byte replaced by two newline bytes. -/
def doubleNewlines (s : GoString) : GoString :=
  s.flatMap (fun c => if c = '\n' then ['\n', '\n'] else [c])

/-- A bucket entry with the key `key`. -/
def contentOfKey (key : String) : Content :=
  { Key := key.toList, LastModified := [], ETag := [], Size := [] }

/-- A feed item with the given title, description and publication date. -/
def itemOf (title description pubDate : String) : Item :=
  { Title := title.toList, Link := [], Description := description.toList,
    PubDate := pubDate.toList, Guid := [], Duration := [], Author := [], Explicit := [],
    Summary := [], Subtitle := [] }

/-- The episode `main` builds for a feed item without guid. -/
def episodeOf (number : Int) (title date guest audio content : String) : Episode :=
  { Number := number, Title := title.toList, Date := date.toList, Guid := [],
    Guest := guest.toList, Audio := audio.toList, Description := title.toList,
    Content := content.toList }

/-- A bucket listing of seven audio files, numbered 0 to 6. -/
def sampleContents : List Content :=
  [contentOfKey "0-2022-12-01-ann-lee.mp3", contentOfKey "1-2023-01-01-jane-doe.mp3",
    contentOfKey "2-2023-02-01-john-roe.mp3", contentOfKey "3-2023-03-01-max-poe.mp3",
    contentOfKey "4-2023-04-01-kim-fox.mp3", contentOfKey "5-2023-05-01-lea-ray.mp3",
    contentOfKey "6-2023-06-01-sam-orr.mp3"]

/-- A feed of six items, numbered 1 to 6, the latest first. -/
def sampleItems : List Item :=
  [itemOf "#6 - Sam Orr - Six" "f" "Thu, 01 Jun 2023 10:00:00 +0300",
    itemOf "#5 - Lea Ray - Five" "e" "Mon, 01 May 2023 10:00:00 +0300",
    itemOf "#4 - Kim Fox - Four" "d" "Sat, 01 Apr 2023 10:00:00 +0300",
    itemOf "#3 - Max Poe - Three" "c" "Wed, 01 Mar 2023 10:00:00 +0300",
    itemOf "#2 - John Roe - Two" "b" "Wed, 01 Feb 2023 10:00:00 +0300",
    itemOf "#1 - Jane Doe - One" "a" "Sun, 01 Jan 2023 10:00:00 +0300"]

/-- The episodes of the sample feed, in the order of the feed. -/
def sampleEpisodes : List Episode :=
  [episodeOf 6 "#6 - Sam Orr - Six" "2023-06-01" "sam-orr" "6-2023-06-01-sam-orr.mp3" "f",
    episodeOf 5 "#5 - Lea Ray - Five" "2023-05-01" "lea-ray" "5-2023-05-01-lea-ray.mp3" "e",
    episodeOf 4 "#4 - Kim Fox - Four" "2023-04-01" "kim-fox" "4-2023-04-01-kim-fox.mp3" "d",
    episodeOf 3 "#3 - Max Poe - Three" "2023-03-01" "max-poe" "3-2023-03-01-max-poe.mp3" "c",
    episodeOf 2 "#2 - John Roe - Two" "2023-02-01" "john-roe" "2-2023-02-01-john-roe.mp3" "b",
    episodeOf 1 "#1 - Jane Doe - One" "2023-01-01" "jane-doe" "1-2023-01-01-jane-doe.mp3" "a"]

/-! ## Lemmas on `strconv` -/

theorem decimalFold_ge (ds : GoString) (n : Nat) : n ≤ decimalFold ds n := by
  induction ds generalizing n with
  | nil => simp [decimalFold]
  | cons c cs ih =>
    have h := ih (n * 10 + (c.toNat - '0'.toNat))
    simp only [decimalFold, List.foldl_cons] at h ⊢
    omega

theorem decimalFold_cons (c : Char) (cs : GoString) (n : Nat) :
    decimalFold (c :: cs) n = decimalFold cs (n * 10 + (c.toNat - '0'.toNat)) := rfl

theorem two_pow_64 : (2 : Nat) ^ 64 = 18446744073709551616 := by norm_num

theorem parseUintLoop_digits (maxVal : Nat) (hmax : maxVal < 2 ^ 64) :
    ∀ (ds : GoString) (n : Nat), (∀ c ∈ ds, c.isDigit = true) →
      decimalFold ds n ≤ maxVal →
      parseUintLoop maxVal ds n = (decimalFold ds n, none) := by
  intro ds
  induction ds with
  | nil => intro n _ _; rfl
  | cons c cs ih =>
    intro n hd hle
    have hc : c.isDigit = true := hd c (List.mem_cons_self _ _)
    have hcs : ∀ x ∈ cs, x.isDigit = true := fun x hx => hd x (List.mem_cons_of_mem _ hx)
    rw [decimalFold_cons] at hle ⊢
    have h1 : n * 10 + (c.toNat - '0'.toNat) ≤ maxVal := le_trans (decimalFold_ge _ _) hle
    have h64 := two_pow_64
    have hcut : ¬ (n ≥ maxUint64 / 10 + 1) := by
      simp only [maxUint64, h64]
      omega
    have hmod : (n * 10 + (c.toNat - '0'.toNat)) % 2 ^ 64 = n * 10 + (c.toNat - '0'.toNat) :=
      Nat.mod_eq_of_lt (by omega)
    have hno : ¬ ((n * 10 + (c.toNat - '0'.toNat)) < n * 10 ∨
        (n * 10 + (c.toNat - '0'.toNat)) > maxVal) := by omega
    simp only [parseUintLoop, hc, if_true, hcut, if_false, hmod, hno]
    exact ih _ hcs hle

theorem atoiFastLoop_digits :
    ∀ (ds : GoString) (n : Nat), (∀ c ∈ ds, c.isDigit = true) →
      atoiFastLoop ds (n : Int) = (((decimalFold ds n : Nat) : Int), none) := by
  intro ds
  induction ds with
  | nil => intro n _; rfl
  | cons c cs ih =>
    intro n hd
    have hc : c.isDigit = true := hd c (List.mem_cons_self _ _)
    have hcs : ∀ x ∈ cs, x.isDigit = true := fun x hx => hd x (List.mem_cons_of_mem _ hx)
    rw [decimalFold_cons]
    simp only [atoiFastLoop, hc, if_true]
    have := ih (n * 10 + (c.toNat - '0'.toNat)) hcs
    rw [← this]
    push_cast
    rfl

theorem digit_ne_sign (c : Char) (hc : c.isDigit = true) : c ≠ '-' ∧ c ≠ '+' := by
  constructor <;> rintro rfl <;> exact absurd hc (by decide)

theorem digitChar_spec (k : Nat) (hk : k < 10) :
    (Nat.digitChar k).isDigit = true ∧ (Nat.digitChar k).toNat - '0'.toNat = k := by
  interval_cases k <;> decide

theorem toDigitsCore_spec :
    ∀ (fuel n : Nat) (ds : GoString), n < fuel → (∀ c ∈ ds, c.isDigit = true) →
      (∀ c ∈ Nat.toDigitsCore 10 fuel n ds, c.isDigit = true) ∧
      Nat.toDigitsCore 10 fuel n ds ≠ [] ∧
      decimalFold (Nat.toDigitsCore 10 fuel n ds) 0 = decimalFold ds n := by
  intro fuel
  induction fuel with
  | zero => intro n ds h; omega
  | succ fuel ih =>
    intro n ds hn hds
    have hdig := digitChar_spec (n % 10) (Nat.mod_lt _ (by norm_num))
    have hds2 : ∀ c ∈ Nat.digitChar (n % 10) :: ds, c.isDigit = true := by
      intro c hc
      rcases List.mem_cons.1 hc with rfl | hc
      · exact hdig.1
      · exact hds c hc
    unfold Nat.toDigitsCore
    by_cases h0 : n / 10 = 0
    · simp only [h0, if_true]
      refine ⟨hds2, List.cons_ne_nil _ _, ?_⟩
      rw [decimalFold_cons, hdig.2]
      congr 1
      omega
    · simp only [h0, if_false]
      have hlt : n / 10 < fuel := by omega
      obtain ⟨h1, h2, h3⟩ := ih (n / 10) _ hlt hds2
      refine ⟨h1, h2, ?_⟩
      rw [h3, decimalFold_cons, hdig.2]
      congr 1
      omega

theorem toDigits_isDecimal (N : Nat) : IsDecimal (Nat.toDigits 10 N) := by
  obtain ⟨h1, h2, _⟩ := toDigitsCore_spec (N + 1) N [] (by omega) (by simp)
  exact ⟨h2, h1⟩

theorem decimalValue_toDigits (N : Nat) : decimalValue (Nat.toDigits 10 N) = N := by
  obtain ⟨_, _, h3⟩ := toDigitsCore_spec (N + 1) N [] (by omega) (by simp)
  simpa [decimalValue, Nat.toDigits, decimalFold] using h3

/-! ## Lemmas on `strings` and on indexing -/

theorem goIndex_zero_cons {α : Type} (x : α) (xs : List α) :
    goIndex (x :: xs) 0 = .ok x := rfl

theorem stringsSplit_ne_nil (s : GoString) (sep : Char) : stringsSplit s sep ≠ [] := by
  cases s with
  | nil => simp [stringsSplit]
  | cons c cs =>
    unfold stringsSplit
    split_ifs
    · simp
    · split <;> simp

/-- The model of `strings.Split` agrees with the library function `List.splitOn`. -/
theorem stringsSplit_eq_splitOn (s : GoString) (sep : Char) :
    stringsSplit s sep = s.splitOn sep := by
  induction s with
  | nil => rfl
  | cons c cs ih =>
    unfold stringsSplit
    rw [List.splitOn, List.splitOnP_cons, ← List.splitOn, ← ih]
    by_cases hc : c = sep
    · simp [hc]
    · cases hs : stringsSplit cs sep with
      | nil => exact absurd hs (stringsSplit_ne_nil _ _)
      | cons p ps => simp [hc]

theorem stringsSplit_cons_sep (cs : GoString) (sep : Char) :
    stringsSplit (sep :: cs) sep = [] :: stringsSplit cs sep := by
  simp [stringsSplit]

theorem stringsSplit_cons_ne (c : Char) (cs : GoString) (sep : Char) (h : c ≠ sep) :
    ∃ p ps, stringsSplit cs sep = p :: ps ∧ stringsSplit (c :: cs) sep = (c :: p) :: ps := by
  cases hs : stringsSplit cs sep with
  | nil => exact absurd hs (stringsSplit_ne_nil _ _)
  | cons p ps => exact ⟨p, ps, rfl, by simp [stringsSplit, h, hs]⟩

theorem stringsSplit_of_not_mem (s : GoString) (sep : Char) (h : sep ∉ s) :
    stringsSplit s sep = [s] := by
  induction s with
  | nil => rfl
  | cons c cs ih =>
    have hc : c ≠ sep := fun e => h (e ▸ List.mem_cons_self _ _)
    have hcs : sep ∉ cs := fun e => h (List.mem_cons_of_mem _ e)
    obtain ⟨p, ps, h1, h2⟩ := stringsSplit_cons_ne c cs sep hc
    rw [h2]
    rw [ih hcs] at h1
    injection h1 with h3 h4
    rw [← h3, ← h4]

theorem stringsSplit_append (seg rest : GoString) (sep : Char) (h : sep ∉ seg) :
    stringsSplit (seg ++ sep :: rest) sep = seg :: stringsSplit rest sep := by
  induction seg with
  | nil => simp [stringsSplit]
  | cons c cs ih =>
    have hc : c ≠ sep := fun e => h (e ▸ List.mem_cons_self _ _)
    have hcs : sep ∉ cs := fun e => h (List.mem_cons_of_mem _ e)
    obtain ⟨p, ps, h1, h2⟩ := stringsSplit_cons_ne c (cs ++ sep :: rest) sep hc
    rw [List.cons_append, h2]
    rw [ih hcs] at h1
    injection h1 with h3 h4
    rw [← h3, ← h4]

theorem textBefore_append_of_mem (s : GoString) (sep : Char) (h : sep ∈ s) :
    ∃ rest, s = textBefore sep s ++ sep :: rest := by
  induction s with
  | nil => simp at h
  | cons c cs ih =>
    by_cases hc : c = sep
    · subst hc
      exact ⟨cs, by simp [textBefore]⟩
    · have hcs : sep ∈ cs := by
        rcases List.mem_cons.1 h with e | e
        · exact absurd e.symm hc
        · exact e
      obtain ⟨rest, hr⟩ := ih hcs
      refine ⟨rest, ?_⟩
      have : textBefore sep (c :: cs) = c :: textBefore sep cs := by
        simp [textBefore, List.takeWhile_cons, hc]
      rw [this, List.cons_append, ← hr]

theorem textBefore_not_mem (s : GoString) (sep : Char) : sep ∉ textBefore sep s := by
  intro h
  have := List.mem_takeWhile_imp h
  simp at this

theorem textBefore_of_not_mem (s : GoString) (sep : Char) (h : sep ∉ s) :
    textBefore sep s = s := by
  unfold textBefore
  rw [List.takeWhile_eq_self_iff]
  intro c hc
  have : c ≠ sep := fun e => h (e ▸ hc)
  simpa using this

/-- The first piece of a split is the text before the first separator. -/
theorem stringsSplit_head (s : GoString) (sep : Char) :
    ∃ ps, stringsSplit s sep = textBefore sep s :: ps := by
  by_cases h : sep ∈ s
  · obtain ⟨rest, hr⟩ := textBefore_append_of_mem s sep h
    refine ⟨stringsSplit rest sep, ?_⟩
    conv_lhs => rw [hr]
    exact stringsSplit_append _ _ _ (textBefore_not_mem s sep)
  · exact ⟨[], by rw [textBefore_of_not_mem s sep h, stringsSplit_of_not_mem s sep h]⟩

/-- A split has two pieces or more exactly when the separator occurs. -/
theorem two_le_length_stringsSplit (s : GoString) (sep : Char) :
    2 ≤ (stringsSplit s sep).length ↔ sep ∈ s := by
  constructor
  · intro h
    by_contra hn
    rw [stringsSplit_of_not_mem s sep hn] at h
    simp at h
  · intro h
    obtain ⟨rest, hr⟩ := textBefore_append_of_mem s sep h
    rw [hr, stringsSplit_append _ _ _ (textBefore_not_mem s sep)]
    have := stringsSplit_ne_nil rest sep
    cases hs : stringsSplit rest sep with
    | nil => exact absurd hs this
    | cons p ps => simp

theorem stringsContains_iff (s : GoString) (sep : Char) :
    stringsContains s sep = true ↔ sep ∈ s := by
  unfold stringsContains
  rw [List.any_eq_true]
  constructor
  · rintro ⟨c, hc, he⟩
    have : c = sep := by simpa using he
    exact this ▸ hc
  · intro h
    exact ⟨sep, h, by simp⟩

theorem dropWhile_replicate_append (p : Char → Bool) (a : Char) (hp : p a = true)
    (l : Nat) (x : GoString) :
    (List.replicate l a ++ x).dropWhile p = x.dropWhile p := by
  induction l with
  | zero => simp
  | succ l ih => simp [List.replicate_succ, List.dropWhile_cons, hp, ih]

/-- Trimming removes the spaces around a text that neither starts nor ends with one. -/
theorem stringsTrim_spaces (l r : Nat) (a b : Char) (mid : GoString)
    (ha : a ≠ ' ') (hb : b ≠ ' ') :
    stringsTrim (List.replicate l ' ' ++ (a :: mid ++ [b]) ++ List.replicate r ' ')
      " ".toList = a :: mid ++ [b] := by
  have hsp : (fun c : Char => (" ".toList).contains c) ' ' = true := by decide
  have hna : (fun c : Char => (" ".toList).contains c) a = false := by
    simp [List.contains, ha]
  have hnb : (fun c : Char => (" ".toList).contains c) b = false := by
    simp [List.contains, hb]
  unfold stringsTrim
  rw [List.append_assoc, dropWhile_replicate_append _ ' ' hsp]
  have h1 : ((a :: mid ++ [b]) ++ List.replicate r ' ').dropWhile
      (fun c : Char => (" ".toList).contains c) = (a :: mid ++ [b]) ++ List.replicate r ' ' := by
    rw [List.cons_append, List.cons_append, List.dropWhile_cons]
    simp only [hna]
    rfl
  rw [h1, List.reverse_append, List.reverse_replicate,
    dropWhile_replicate_append _ ' ' hsp]
  have h2 : (a :: mid ++ [b]).reverse = b :: (a :: mid).reverse := by
    simp
  rw [h2, List.dropWhile_cons]
  simp only [hnb]
  simp

theorem isDecimal_snoc (ds : GoString) (h : IsDecimal ds) :
    ∃ init last, ds = init ++ [last] ∧ last.isDigit = true := by
  obtain ⟨hne, hd⟩ := h
  refine ⟨ds.dropLast, ds.getLast hne, (List.dropLast_append_getLast hne).symm, ?_⟩
  exact hd _ (List.getLast_mem hne)

theorem digit_ne_space (c : Char) (hc : c.isDigit = true) : c ≠ ' ' ∧ c ≠ '-' := by
  constructor <;> rintro rfl <;> exact absurd hc (by decide)

/-! ## Lemmas on `getNumber` and `getGuestName` -/

/-- The result of `getNumber` from the first piece of the title. -/
theorem getNumber_eq (intSize : Nat) (title : GoString) :
    getNumber intSize title =
      match goSliceFrom (stringsTrim (textBefore '-' title) " ".toList) 1 with
      | .error p => .error p
      | .ok tail =>
        match Atoi intSize tail with
        | (_, some err) => .ok (0, some err)
        | (number, none) => .ok (number, none) := by
  obtain ⟨ps, hps⟩ := stringsSplit_head title '-'
  unfold getNumber
  rw [hps]
  simp only [goIndex_zero_cons, bind, Except.bind, pure, Except.pure]
  cases goSliceFrom (stringsTrim (textBefore '-' title) " ".toList) 1 with
  | error p => rfl
  | ok tail => rfl

theorem goIndex_nat {α : Type} (xs : List α) (i : Nat) :
    goIndex xs (i : Int) =
      match xs.get? i with
      | some x => .ok x
      | none => .error .indexOutOfRange := by
  unfold goIndex
  have : ¬ ((i : Int) < 0) := by omega
  simp only [this, if_false, Int.toNat_ofNat]

theorem goIndex_neg {α : Type} (xs : List α) (i : Int) (h : i < 0) :
    goIndex xs i = .error .indexOutOfRange := by
  unfold goIndex
  simp [h]

theorem goIndex_ge {α : Type} (xs : List α) (i : Nat) (h : xs.length ≤ i) :
    goIndex xs (i : Int) = .error .indexOutOfRange := by
  rw [goIndex_nat, List.get?_eq_none.2 h]

theorem goIndex_lt {α : Type} (xs : List α) (i : Nat) (h : i < xs.length) :
    goIndex xs (i : Int) = .ok (xs.get ⟨i, h⟩) := by
  rw [goIndex_nat, List.get?_eq_get h]

theorem exists_last_two {α : Type} (ws : List α) (h : 2 ≤ ws.length) :
    ∃ pre a b, ws = pre ++ [a, b] := by
  have hne : ws ≠ [] := by
    intro e
    rw [e] at h
    simp at h
  have h1 := (List.dropLast_append_getLast hne).symm
  have hne2 : ws.dropLast ≠ [] := by
    intro e
    have : ws.dropLast.length = 0 := by rw [e]; rfl
    rw [List.length_dropLast] at this
    omega
  have h2 := (List.dropLast_append_getLast hne2).symm
  refine ⟨ws.dropLast.dropLast, ws.dropLast.getLast hne2, ws.getLast hne, ?_⟩
  conv_lhs => rw [h1, h2]
  simp

/-- The result of `getGuestName` from the pieces of the text before the first `.`. -/
theorem getGuestName_eq (audio : GoString) :
    getGuestName audio =
      match goIndex (stringsSplit (textBefore '.' audio) '-')
          (((stringsSplit (textBefore '.' audio) '-').length : Int) - 2) with
      | .error p => .error p
      | .ok w2 =>
        match goIndex (stringsSplit (textBefore '.' audio) '-')
            (((stringsSplit (textBefore '.' audio) '-').length : Int) - 1) with
        | .error p => .error p
        | .ok w1 => .ok (w2 ++ "-".toList ++ w1, none) := by
  obtain ⟨ps, hps⟩ := stringsSplit_head audio '.'
  unfold getGuestName
  rw [hps]
  simp only [goIndex_zero_cons, bind, Except.bind, pure, Except.pure]
  generalize goIndex (stringsSplit (textBefore '.' audio) '-')
    (((stringsSplit (textBefore '.' audio) '-').length : Int) - 2) = r2
  generalize goIndex (stringsSplit (textBefore '.' audio) '-')
    (((stringsSplit (textBefore '.' audio) '-').length : Int) - 1) = r1
  cases r2 <;> cases r1 <;> rfl

theorem getGuestName_of_words (audio : GoString) (pre : List GoString) (a b : GoString)
    (h : stringsSplit (textBefore '.' audio) '-' = pre ++ [a, b]) :
    getGuestName audio = .ok (a ++ "-".toList ++ b, none) := by
  rw [getGuestName_eq, h]
  have e2 : (((pre ++ [a, b]).length : Int) - 2) = ((pre.length : Nat) : Int) := by
    simp
  have e1 : (((pre ++ [a, b]).length : Int) - 1) = ((pre.length + 1 : Nat) : Int) := by
    simp
    omega
  have g2 : (pre ++ [a, b]).get? pre.length = some a := by
    rw [List.get?_eq_getElem?, List.getElem?_append_right (le_refl _)]
    simp
  have g1 : (pre ++ [a, b]).get? (pre.length + 1) = some b := by
    rw [List.get?_eq_getElem?, List.getElem?_append_right (Nat.le_succ _)]
    simp
  rw [e2, e1, goIndex_nat, goIndex_nat, g2, g1]

theorem getGuestName_of_single (audio : GoString)
    (h : (stringsSplit (textBefore '.' audio) '-').length < 2) :
    getGuestName audio = .error .indexOutOfRange := by
  rw [getGuestName_eq, goIndex_neg _ _ (by omega)]

/-! ## Lemmas on the catalog -/

/-- The loop of `fetchAudioList` appends one entry per key that contains `-`, in the
order of the listing; the number of an entry is what `Atoi` makes of the text before the
first `-`. -/
theorem fetchAudioLoop_eq (intSize : Nat) (contents : List Content) (audioList : List Audio) :
    fetchAudioLoop intSize contents audioList =
      audioList ++ (contents.filter (fun c => decide ('-' ∈ c.Key))).map
        (fun c => { Number := (Atoi intSize (textBefore '-' c.Key)).1, Name := c.Key }) := by
  induction contents generalizing audioList with
  | nil => simp [fetchAudioLoop]
  | cons c cs ih =>
    unfold fetchAudioLoop
    by_cases hc : '-' ∈ c.Key
    · have h1 : stringsContains c.Key '-' = true := (stringsContains_iff _ _).2 hc
      obtain ⟨ps, hps⟩ := stringsSplit_head c.Key '-'
      simp only [h1, Bool.not_true, Bool.false_eq_true, if_false, hps]
      rw [ih, List.filter_cons_of_pos (by simpa using hc)]
      simp
    · have h1 : stringsContains c.Key '-' = false := by
        rw [← Bool.not_eq_true, stringsContains_iff]
        exact hc
      simp only [h1, Bool.not_false, if_true]
      rw [ih, List.filter_cons_of_neg (by simpa using hc)]

theorem fetchAudioList_perm (env : Env) (henv : env.Conforms) (contents : List Content) :
    (fetchAudioList env contents).Perm
      ((contents.filter (fun c => decide ('-' ∈ c.Key))).map
        (fun c => { Number := (Atoi env.intSize (textBefore '-' c.Key)).1, Name := c.Key })) := by
  unfold fetchAudioList
  have h := henv.sort_perm AudioList.Less (fetchAudioLoop env.intSize contents [])
  have e := fetchAudioLoop_eq env.intSize contents []
  rw [List.nil_append] at e
  exact e ▸ h

theorem fetchAudioList_sorted (env : Env) (henv : env.Conforms) (contents : List Content) :
    (fetchAudioList env contents).Pairwise (fun a b => a.Number ≤ b.Number) :=
  henv.sort_sorted (fun a : Audio => a.Number) (fetchAudioLoop env.intSize contents [])

/-- Every entry of the catalog comes from a listed key that contains `-`, with the number
`Atoi` makes of the text before the first `-`. -/
theorem mem_fetchAudioList (env : Env) (henv : env.Conforms) (contents : List Content)
    (a : Audio) (ha : a ∈ fetchAudioList env contents) :
    '-' ∈ a.Name ∧ (∃ c ∈ contents, c.Key = a.Name) ∧
      a.Number = (Atoi env.intSize (textBefore '-' a.Name)).1 := by
  have h := (fetchAudioList_perm env henv contents).mem_iff.1 ha
  rw [List.mem_map] at h
  obtain ⟨c, hc, rfl⟩ := h
  rw [List.mem_filter] at hc
  exact ⟨by simpa using hc.2, ⟨c, hc.1, rfl⟩, rfl⟩

/-! ## Lemmas on the reference environment -/

theorem insertLast_perm {α : Type} (less : α → α → Bool) (x : α) (ys : List α) :
    (insertLast less x ys).Perm (x :: ys) := by
  induction ys with
  | nil => simp [insertLast]
  | cons y ys ih =>
    unfold insertLast
    split_ifs
    · exact List.Perm.refl _
    · exact (List.Perm.cons y ih).trans (List.Perm.swap x y ys)

theorem foldl_insertLast_perm {α : Type} (less : α → α → Bool) (xs acc : List α) :
    (xs.foldl (fun sorted x => insertLast less x sorted) acc).Perm (acc ++ xs) := by
  induction xs generalizing acc with
  | nil => simp
  | cons x xs ih =>
    rw [List.foldl_cons]
    refine (ih _).trans ?_
    have h1 : (insertLast less x acc ++ xs).Perm ((x :: acc) ++ xs) :=
      List.Perm.append_right xs (insertLast_perm less x acc)
    refine h1.trans ?_
    have h2 : (x :: acc).Perm (acc ++ [x]) := by
      rw [← List.singleton_append]
      exact List.perm_append_comm
    have h3 := List.Perm.append_right xs h2
    simpa using h3

theorem insertLast_sorted {α : Type} (key : α → Int) (x : α) (ys : List α)
    (h : ys.Pairwise (fun a b => key a ≤ key b)) :
    (insertLast (fun a b => decide (key a < key b)) x ys).Pairwise
      (fun a b => key a ≤ key b) := by
  induction ys with
  | nil => simp [insertLast]
  | cons y ys ih =>
    unfold insertLast
    rw [List.pairwise_cons] at h
    split_ifs with hall
    · rw [List.pairwise_cons]
      refine ⟨?_, List.pairwise_cons.2 h⟩
      intro z hz
      have := List.all_eq_true.1 hall z hz
      have : key x < key z := by simpa using this
      omega
    · rw [List.pairwise_cons]
      refine ⟨?_, ih h.2⟩
      intro z hz
      rcases List.mem_cons.1 ((insertLast_perm _ x ys).mem_iff.1 hz) with rfl | hz
      · have hex : ∃ w ∈ y :: ys, ¬ (key z < key w) := by
          by_contra hcon
          apply hall
          rw [List.all_eq_true]
          intro w hw
          have : key z < key w := by
            by_contra hlt
            exact hcon ⟨w, hw, hlt⟩
          simpa using this
        obtain ⟨w, hw, hwz⟩ := hex
        rcases List.mem_cons.1 hw with rfl | hw
        · omega
        · have := h.1 w hw
          omega
      · exact h.1 z hz

theorem foldl_insertLast_sorted {α : Type} (key : α → Int) (xs acc : List α)
    (h : acc.Pairwise (fun a b => key a ≤ key b)) :
    (xs.foldl (fun sorted x => insertLast (fun a b => decide (key a < key b)) x sorted)
      acc).Pairwise (fun a b => key a ≤ key b) := by
  induction xs generalizing acc with
  | nil => simpa using h
  | cons x xs ih =>
    rw [List.foldl_cons]
    exact ih _ (insertLast_sorted key x acc h)

/-- The reference environment meets the contract of the library. -/
theorem refEnv_conforms : refEnv.Conforms where
  intSize_eq := Or.inr rfl
  sort_perm := by
    intro α less xs
    have := foldl_insertLast_perm less xs []
    simpa [refEnv, insertionSort] using this
  sort_sorted := by
    intro α key xs
    exact foldl_insertLast_sorted key xs [] List.Pairwise.nil

/-! ## Lemmas on the rendering loop -/

theorem renderLoop_eq (episodeDir : GoString) (limit : Nat) (episodes : List Episode)
    (i : Nat) (written : List FileWrite) :
    renderLoop episodeDir limit episodes i written =
      written ++ (episodes.take (limit - i)).map
        (fun e => { path := episodePath episodeDir e, content := renderTemplate e }) := by
  induction episodes generalizing i written with
  | nil => simp [renderLoop]
  | cons e es ih =>
    unfold renderLoop
    split_ifs with hlt
    · rw [ih]
      have : limit - i = (limit - (i + 1)) + 1 := by omega
      rw [this, List.take_succ_cons]
      simp
    · have : limit - i = 0 := by omega
      simp [this]

/-! ## Lemmas on the reconciliation loop -/

/-- The body of the reconciliation loop, step by step: the title's number (the error of
`getNumber` is dropped), the date, the catalog entry at index `number`, the guest. -/
theorem reconcileItem_eq (env : Env) (audioList : List Audio) (item : Item) :
    reconcileItem env audioList item =
      match getNumber env.intSize item.Title with
      | .error p => .error p
      | .ok (number, _) =>
        match env.timeParse item.PubDate with
        | none => .error .timeParseError
        | some date =>
          match goIndex audioList number with
          | .error p => .error p
          | .ok audio =>
            match getGuestName audio.Name with
            | .error p => .error p
            | .ok (guest, _) =>
              .ok { Number := number
                    Title := item.Title
                    Date := date
                    Guid := item.Guid
                    Guest := guest
                    Audio := audio.Name
                    Description := item.Title
                    Content := stringsReplaceAll item.Description '\n' "\n\n".toList } := by
  unfold reconcileItem
  cases hn : getNumber env.intSize item.Title with
  | error p => rfl
  | ok r =>
    obtain ⟨number, e⟩ := r
    cases ht : env.timeParse item.PubDate with
    | none => simp [bind, Except.bind, ht]; rfl
    | some date =>
      cases hi : goIndex audioList number with
      | error p => simp [bind, Except.bind, ht, hi]
      | ok audio =>
        cases hg : getGuestName audio.Name with
        | error p => simp [bind, Except.bind, ht, hi, hg]
        | ok g =>
          obtain ⟨guest, e2⟩ := g
          simp [bind, Except.bind, ht, hi, hg, pure, Except.pure]

theorem reconcileLoop_append (env : Env) (audioList : List Audio) (items : List Item)
    (acc eps : List Episode) (h : reconcileLoop env audioList items acc = .ok eps) :
    ∃ new, eps = acc ++ new ∧
      List.Forall₂ (fun item e => reconcileItem env audioList item = .ok e) items new := by
  induction items generalizing acc with
  | nil =>
    simp only [reconcileLoop, Except.ok.injEq] at h
    exact ⟨[], by simp [h], List.Forall₂.nil⟩
  | cons item rest ih =>
    unfold reconcileLoop at h
    cases hr : reconcileItem env audioList item with
    | error p => rw [hr] at h; simp at h
    | ok e =>
      rw [hr] at h
      obtain ⟨new, h1, h2⟩ := ih _ h
      exact ⟨e :: new, by simp [h1], List.Forall₂.cons hr h2⟩

theorem reconcileLoop_of_forall₂ (env : Env) (audioList : List Audio) (items : List Item)
    (acc new : List Episode)
    (h : List.Forall₂ (fun item e => reconcileItem env audioList item = .ok e) items new) :
    reconcileLoop env audioList items acc = .ok (acc ++ new) := by
  induction h generalizing acc with
  | nil => simp [reconcileLoop]
  | cons hr _ ih =>
    unfold reconcileLoop
    rw [hr]
    simp only
    rw [ih]
    simp

/-- The loop stops at the first item whose body panics, with that panic. -/
theorem reconcileLoop_first_error (env : Env) (audioList : List Audio)
    (pre : List Item) (item : Item) (post : List Item) (acc new : List Episode) (p : Panic)
    (hpre : List.Forall₂ (fun item e => reconcileItem env audioList item = .ok e) pre new)
    (hitem : reconcileItem env audioList item = .error p) :
    reconcileLoop env audioList (pre ++ item :: post) acc = .error p := by
  induction hpre generalizing acc with
  | nil =>
    simp only [List.nil_append]
    unfold reconcileLoop
    rw [hitem]
  | cons hr _ ih =>
    simp only [List.cons_append]
    unfold reconcileLoop
    rw [hr]
    exact ih _

/-- The loop panics as soon as the body panics on some item. -/
theorem reconcileLoop_error_of_mem (env : Env) (audioList : List Audio) (items : List Item)
    (acc : List Episode) (item : Item) (hmem : item ∈ items) (p : Panic)
    (hitem : reconcileItem env audioList item = .error p) :
    ∃ q, reconcileLoop env audioList items acc = .error q := by
  induction items generalizing acc with
  | nil => simp at hmem
  | cons x rest ih =>
    unfold reconcileLoop
    cases hr : reconcileItem env audioList x with
    | error q => exact ⟨q, rfl⟩
    | ok e =>
      rcases List.mem_cons.1 hmem with rfl | hrest
      · rw [hitem] at hr
        simp at hr
      · exact ih _ hrest

/-! ## More on `strconv.Atoi`: signs, syntax errors, range errors -/

theorem isDigit_bounds (c : Char) (hc : c.isDigit = true) :
    '0'.toNat ≤ c.toNat ∧ c.toNat - '0'.toNat ≤ 9 := by
  simp only [Char.isDigit, Bool.and_eq_true, decide_eq_true_eq] at hc
  obtain ⟨h1, h2⟩ := hc
  have h1n : (48 : UInt32).toNat ≤ c.val.toNat := h1
  have h2n : c.val.toNat ≤ (57 : UInt32).toNat := h2
  have e0 : '0'.toNat = 48 := rfl
  have e1 : (48 : UInt32).toNat = 48 := rfl
  have e2 : (57 : UInt32).toNat = 57 := rfl
  have e3 : c.toNat = c.val.toNat := rfl
  omega

theorem parseUintLoop_bad_digit (maxVal : Nat) (hmax : maxVal < 2 ^ 64) :
    ∀ (ds : GoString) (n : Nat), (∃ c ∈ ds, c.isDigit = false) →
      decimalFold (ds.takeWhile Char.isDigit) n ≤ maxVal →
      parseUintLoop maxVal ds n = (0, some .ErrSyntax) := by
  intro ds
  induction ds with
  | nil => intro n h; simp at h
  | cons c cs ih =>
    intro n hex hle
    by_cases hc : c.isDigit = true
    · have hcs : ∃ x ∈ cs, x.isDigit = false := by
        obtain ⟨x, hx, hxd⟩ := hex
        rcases List.mem_cons.1 hx with rfl | hx
        · rw [hc] at hxd; simp at hxd
        · exact ⟨x, hx, hxd⟩
      rw [List.takeWhile_cons_of_pos hc, decimalFold_cons] at hle
      have h1 : n * 10 + (c.toNat - '0'.toNat) ≤ maxVal := le_trans (decimalFold_ge _ _) hle
      have h64 := two_pow_64
      have hcut : ¬ (n ≥ maxUint64 / 10 + 1) := by
        simp only [maxUint64, h64]
        omega
      have hmod : (n * 10 + (c.toNat - '0'.toNat)) % 2 ^ 64 = n * 10 + (c.toNat - '0'.toNat) :=
        Nat.mod_eq_of_lt (by omega)
      have hno : ¬ ((n * 10 + (c.toNat - '0'.toNat)) < n * 10 ∨
          (n * 10 + (c.toNat - '0'.toNat)) > maxVal) := by omega
      simp only [parseUintLoop, hc, if_true, hcut, if_false, hmod, hno]
      exact ih _ hcs hle
    · simp [parseUintLoop, hc]

theorem atoiFastLoop_bad_digit :
    ∀ (ds : GoString) (n : Int), (∃ c ∈ ds, c.isDigit = false) →
      atoiFastLoop ds n = (0, some .ErrSyntax) := by
  intro ds
  induction ds with
  | nil => intro n h; simp at h
  | cons c cs ih =>
    intro n hex
    by_cases hc : c.isDigit = true
    · have hcs : ∃ x ∈ cs, x.isDigit = false := by
        obtain ⟨x, hx, hxd⟩ := hex
        rcases List.mem_cons.1 hx with rfl | hx
        · rw [hc] at hxd; simp at hxd
        · exact ⟨x, hx, hxd⟩
      simp only [atoiFastLoop, hc, if_true]
      exact ih _ hcs
    · simp [atoiFastLoop, hc]

theorem parseUintLoop_range (maxVal : Nat) :
    ∀ (ds : GoString) (n : Nat), n ≤ maxVal →
      maxVal < decimalFold (ds.takeWhile Char.isDigit) n →
      parseUintLoop maxVal ds n = (maxVal, some .ErrRange) := by
  intro ds
  induction ds with
  | nil =>
    intro n hn h
    simp [decimalFold] at h
    omega
  | cons c cs ih =>
    intro n hn h
    by_cases hc : c.isDigit = true
    · rw [List.takeWhile_cons_of_pos hc, decimalFold_cons] at h
      have hb := isDigit_bounds c hc
      have h64 := two_pow_64
      simp only [parseUintLoop, hc, if_true]
      by_cases hcut : n ≥ maxUint64 / 10 + 1
      · simp [hcut]
      · rw [if_neg hcut]
        simp only [maxUint64, h64] at hcut
        by_cases hov : (n * 10 + (c.toNat - '0'.toNat)) % 2 ^ 64 < n * 10 ∨
            (n * 10 + (c.toNat - '0'.toNat)) % 2 ^ 64 > maxVal
        · simp only [hov, if_true]
        · simp only [hov, if_false]
          have hmod : (n * 10 + (c.toNat - '0'.toNat)) % 2 ^ 64 =
              n * 10 + (c.toNat - '0'.toNat) := by
            rw [h64] at hov ⊢
            omega
          rw [hmod] at hov ⊢
          exact ih _ (by omega) h
    · rw [List.takeWhile_cons_of_neg hc] at h
      simp [decimalFold] at h
      omega

theorem decimalFold_lt (ds : GoString) (hd : ∀ c ∈ ds, c.isDigit = true) (n : Nat) :
    decimalFold ds n < (n + 1) * 10 ^ ds.length := by
  induction ds generalizing n with
  | nil => simp [decimalFold]
  | cons c cs ih =>
    have hc := isDigit_bounds c (hd c (List.mem_cons_self _ _))
    have h := ih (fun x hx => hd x (List.mem_cons_of_mem _ hx)) (n * 10 + (c.toNat - '0'.toNat))
    rw [decimalFold_cons]
    have h2 : (n * 10 + (c.toNat - '0'.toNat) + 1) * 10 ^ cs.length ≤
        ((n + 1) * 10) * 10 ^ cs.length := Nat.mul_le_mul_right _ (by omega)
    calc decimalFold cs (n * 10 + (c.toNat - '0'.toNat))
        < (n * 10 + (c.toNat - '0'.toNat) + 1) * 10 ^ cs.length := h
      _ ≤ ((n + 1) * 10) * 10 ^ cs.length := h2
      _ = (n + 1) * 10 ^ (c :: cs).length := by
        rw [List.length_cons, pow_succ]; ring

theorem decimalValue_lt (ds : GoString) (hd : ∀ c ∈ ds, c.isDigit = true) (k : Nat)
    (hk : ds.length ≤ k) : decimalValue ds < 10 ^ k := by
  have h := decimalFold_lt ds hd 0
  have h2 : 10 ^ ds.length ≤ 10 ^ k := Nat.pow_le_pow_right (by norm_num) hk
  unfold decimalValue
  omega

/-- The value `Atoi` returns, from the text without its optional `+`: `Atoi` on a text
that does not start with `-`. -/
theorem Atoi_unsigned (intSize : Nat) (t : GoString) (hne : unsignedPart t ≠ [])
    (hdash : '-' ∉ t) :
    Atoi intSize t =
      if (intSize = 32 ∧ 0 < t.length ∧ t.length < 10) ∨
          (intSize = 64 ∧ 0 < t.length ∧ t.length < 19) then
        match atoiFastLoop (unsignedPart t) 0 with
        | (_, some e) => (0, some e)
        | (n, none) => (n, none)
      else
        match ParseUint intSize (unsignedPart t) with
        | (_, some .ErrSyntax) => (0, some .ErrSyntax)
        | (un, _) =>
          if un ≥ 2 ^ (intSize - 1) then (((2 ^ (intSize - 1) - 1 : Nat) : Int), some .ErrRange)
          else ((un : Int), none) := by
  cases t with
  | nil => simp [unsignedPart] at hne
  | cons c0 rest =>
    have hc0 : c0 ≠ '-' := fun e => hdash (e ▸ List.mem_cons_self _ _)
    have hlen : ¬ ((c0 = '-' ∨ c0 = '+') ∧ rest.length < 1) := by
      rintro ⟨hs, hl⟩
      have hp : c0 = '+' := by tauto
      have : 0 < (unsignedPart (c0 :: rest)).length := List.length_pos.2 hne
      simp only [unsignedPart, hp, if_true] at this
      omega
    have hbody1 : (if c0 = '-' ∨ c0 = '+' then rest else c0 :: rest) =
        unsignedPart (c0 :: rest) := by
      by_cases hp : c0 = '+' <;> simp [unsignedPart, hp, hc0]
    have hbody2 : (if c0 = '+' ∨ c0 = '-' then rest else c0 :: rest) =
        unsignedPart (c0 :: rest) := by
      by_cases hp : c0 = '+' <;> simp [unsignedPart, hp, hc0]
    unfold Atoi
    dsimp only
    by_cases hfast : (intSize = 32 ∧ 0 < (c0 :: rest).length ∧ (c0 :: rest).length < 10) ∨
        (intSize = 64 ∧ 0 < (c0 :: rest).length ∧ (c0 :: rest).length < 19)
    · rw [if_pos hfast, if_pos hfast, if_neg hlen, hbody1]
      simp only [hc0, if_false]
    · rw [if_neg hfast, if_neg hfast]
      unfold ParseInt
      dsimp only
      rw [hbody2]
      generalize ParseUint intSize (unsignedPart (c0 :: rest)) = r
      obtain ⟨un, e⟩ := r
      cases e with
      | none => simp [hc0]
      | some e => cases e <;> simp [hc0]

theorem two_pow_intSize (intSize : Nat) (hsz : intSize = 32 ∨ intSize = 64) :
    2 ^ (intSize - 1) ≤ 2 ^ intSize - 1 ∧ 2 ^ intSize - 1 < 2 ^ 64 ∧
      10 ^ (if intSize = 32 then 9 else 18) < 2 ^ (intSize - 1) := by
  rcases hsz with rfl | rfl <;> norm_num

theorem ParseUint_decimal (intSize : Nat) (hsz : intSize = 32 ∨ intSize = 64)
    (ds : GoString) (hds : IsDecimal ds) (hv : decimalValue ds ≤ 2 ^ intSize - 1) :
    ParseUint intSize ds = (decimalValue ds, none) := by
  unfold ParseUint
  rw [if_neg hds.1]
  exact parseUintLoop_digits _ (two_pow_intSize intSize hsz).2.1 ds 0 hds.2 hv

theorem not_dash_of_isDecimal_unsigned (t : GoString) (h : IsDecimal (unsignedPart t)) :
    '-' ∉ t := by
  intro hmem
  cases t with
  | nil => simp at hmem
  | cons c0 rest =>
    by_cases hp : c0 = '+'
    · subst hp
      simp only [unsignedPart, if_true] at h
      rcases List.mem_cons.1 hmem with e | e
      · exact absurd e (by decide)
      · exact (digit_ne_space _ (h.2 _ e)).2 rfl
    · simp only [unsignedPart, hp, if_false] at h
      exact (digit_ne_space _ (h.2 _ hmem)).2 rfl

/-- A decimal numeral, with or without a leading `+`, whose value fits `int`: `Atoi`
returns the value and no error. -/
theorem Atoi_numeral (intSize : Nat) (hsz : intSize = 32 ∨ intSize = 64) (t : GoString)
    (hu : IsDecimal (unsignedPart t))
    (hv : decimalValue (unsignedPart t) < 2 ^ (intSize - 1)) :
    Atoi intSize t = ((decimalValue (unsignedPart t) : Int), none) := by
  rw [Atoi_unsigned intSize t hu.1 (not_dash_of_isDecimal_unsigned t hu)]
  have hp := two_pow_intSize intSize hsz
  split_ifs with hfast
  · have h := atoiFastLoop_digits (unsignedPart t) 0 hu.2
    simp only [Nat.cast_zero] at h
    rw [h]
    rfl
  · rw [ParseUint_decimal intSize hsz _ hu (by omega)]
    simp only
    rw [if_neg (by omega)]

theorem unsignedPart_of_isDecimal (ds : GoString) (h : IsDecimal ds) :
    unsignedPart ds = ds := by
  cases ds with
  | nil => rfl
  | cons c cs =>
    have := (digit_ne_sign c (h.2 c (List.mem_cons_self _ _))).2
    simp [unsignedPart, this]

theorem Atoi_decimal (intSize : Nat) (hsz : intSize = 32 ∨ intSize = 64)
    (ds : GoString) (hds : IsDecimal ds) (hv : decimalValue ds < 2 ^ (intSize - 1)) :
    Atoi intSize ds = ((decimalValue ds : Int), none) := by
  have e := unsignedPart_of_isDecimal ds hds
  have := Atoi_numeral intSize hsz ds (e.symm ▸ hds) (e.symm ▸ hv)
  rw [e] at this
  exact this

theorem exists_not_digit (u : GoString) (hne : u ≠ []) (hu : ¬ IsDecimal u) :
    ∃ c ∈ u, c.isDigit = false := by
  by_contra hcon
  apply hu
  refine ⟨hne, fun c hc => ?_⟩
  by_contra hd
  exact hcon ⟨c, hc, by simpa using hd⟩

/-- A text without `-` that is not a decimal numeral, and whose leading digits do not
overflow: `Atoi` returns `0` and a syntax error. -/
theorem Atoi_not_numeral (intSize : Nat) (hsz : intSize = 32 ∨ intSize = 64) (t : GoString)
    (hdash : '-' ∉ t) (hu : ¬ IsDecimal (unsignedPart t))
    (hv : decimalValue ((unsignedPart t).takeWhile Char.isDigit) < 2 ^ intSize) :
    Atoi intSize t = (0, some .ErrSyntax) := by
  by_cases hne : unsignedPart t = []
  · cases t with
    | nil => rcases hsz with rfl | rfl <;> rfl
    | cons c0 rest =>
      by_cases hp : c0 = '+'
      · subst hp
        simp only [unsignedPart, if_true] at hne
        subst hne
        rcases hsz with rfl | rfl <;> rfl
      · simp [unsignedPart, hp] at hne
  · obtain hex := exists_not_digit _ hne hu
    rw [Atoi_unsigned intSize t hne hdash]
    split_ifs with hfast
    · rw [atoiFastLoop_bad_digit _ 0 hex]
    · have hU : ParseUint intSize (unsignedPart t) = (0, some .ErrSyntax) := by
        unfold ParseUint
        rw [if_neg hne]
        exact parseUintLoop_bad_digit _ (two_pow_intSize intSize hsz).2.1 _ 0 hex
          (by unfold decimalValue at hv; omega)
      rw [hU]

/-- A text without `-` whose digits overflow `int`: `Atoi` returns the largest `int` and
a range error. -/
theorem Atoi_range (intSize : Nat) (hsz : intSize = 32 ∨ intSize = 64) (t : GoString)
    (hdash : '-' ∉ t)
    (h : (IsDecimal (unsignedPart t) ∧ 2 ^ (intSize - 1) ≤ decimalValue (unsignedPart t)) ∨
      2 ^ intSize ≤ decimalValue ((unsignedPart t).takeWhile Char.isDigit)) :
    Atoi intSize t = (((2 ^ (intSize - 1) - 1 : Nat) : Int), some .ErrRange) := by
  have hp := two_pow_intSize intSize hsz
  have hpos : 0 < 2 ^ (intSize - 1) := by positivity
  have hne : unsignedPart t ≠ [] := by
    intro e
    rw [e] at h
    rcases h with ⟨h1, _⟩ | h2
    · exact h1.1 rfl
    · simp [decimalValue, decimalFold] at h2
  have htw : ∀ c ∈ (unsignedPart t).takeWhile Char.isDigit, c.isDigit = true :=
    fun c hc => List.mem_takeWhile_imp hc
  have hlen : (unsignedPart t).length ≤ t.length := by
    cases t with
    | nil => simp [unsignedPart]
    | cons c0 rest => by_cases hc : c0 = '+' <;> simp [unsignedPart, hc]
  have htwlen : ((unsignedPart t).takeWhile Char.isDigit).length ≤ t.length :=
    le_trans (List.takeWhile_sublist _).length_le hlen
  have htweq : IsDecimal (unsignedPart t) →
      (unsignedPart t).takeWhile Char.isDigit = unsignedPart t := by
    intro hd
    rw [List.takeWhile_eq_self_iff]
    exact hd.2
  rw [Atoi_unsigned intSize t hne hdash]
  split_ifs with hfast
  · exfalso
    have hk : t.length ≤ (if intSize = 32 then 9 else 18) := by
      rcases hfast with ⟨e, _, hl⟩ | ⟨e, _, hl⟩
      · rw [if_pos e]; omega
      · have : ¬ (intSize = 32) := by omega
        rw [if_neg this]; omega
    have hb := decimalValue_lt _ htw _ (le_trans htwlen hk)
    rcases h with ⟨h1, h2⟩ | h2
    · rw [htweq h1] at hb
      omega
    · omega
  · have hU : (ParseUint intSize (unsignedPart t)).2 ≠ some .ErrSyntax ∧
        2 ^ (intSize - 1) ≤ (ParseUint intSize (unsignedPart t)).1 := by
      by_cases hov : 2 ^ intSize - 1 < decimalValue ((unsignedPart t).takeWhile Char.isDigit)
      · have : ParseUint intSize (unsignedPart t) = (2 ^ intSize - 1, some .ErrRange) := by
          unfold ParseUint
          rw [if_neg hne]
          exact parseUintLoop_range _ _ 0 (Nat.zero_le _) hov
        rw [this]
        exact ⟨by simp, hp.1⟩
      · rcases h with ⟨h1, h2⟩ | h2
        · rw [htweq h1] at hov
          rw [ParseUint_decimal intSize hsz _ h1 (by omega)]
          exact ⟨by simp, h2⟩
        · omega
    generalize ParseUint intSize (unsignedPart t) = r at hU
    obtain ⟨un, e⟩ := r
    obtain ⟨h1, h2⟩ := hU
    simp only at h1 h2
    cases e with
    | none => simp [h2]
    | some e =>
      cases e with
      | ErrSyntax => exact absurd rfl h1
      | ErrRange => simp [h2]

/-- The title `"<spaces>#<digits of N><spaces>"`, followed by nothing or by a `-` and any
text, gives `N` when `N` fits `int`. -/
theorem getNumber_of_title_shape (intSize : Nat) (hsz : intSize = 32 ∨ intSize = 64)
    (N l r : Nat) (rest : GoString) (hN : N < 2 ^ (intSize - 1))
    (hrest : rest = [] ∨ rest.head? = some '-') :
    getNumber intSize
      (List.replicate l ' ' ++ ('#' :: Nat.toDigits 10 N) ++ List.replicate r ' ' ++ rest)
      = .ok ((N : Int), none) := by
  have hdec := toDigits_isDecimal N
  obtain ⟨init, last, hds, hlast⟩ := isDecimal_snoc _ hdec
  have hseg : '-' ∉ List.replicate l ' ' ++ ('#' :: Nat.toDigits 10 N) ++
      List.replicate r ' ' := by
    intro hmem
    simp only [List.mem_append, List.mem_cons, List.mem_replicate] at hmem
    rcases hmem with (⟨_, h⟩ | h | h) | ⟨_, h⟩
    · exact absurd h (by decide)
    · exact absurd h (by decide)
    · exact (digit_ne_space _ (hdec.2 _ h)).2 rfl
    · exact absurd h (by decide)
  have htb : textBefore '-' (List.replicate l ' ' ++ ('#' :: Nat.toDigits 10 N) ++
      List.replicate r ' ' ++ rest) =
      List.replicate l ' ' ++ ('#' :: Nat.toDigits 10 N) ++ List.replicate r ' ' := by
    rcases hrest with rfl | hh
    · rw [List.append_nil]
      exact textBefore_of_not_mem _ _ hseg
    · cases rest with
      | nil => simp at hh
      | cons c cs =>
        simp only [List.head?_cons, Option.some.injEq] at hh
        subst hh
        unfold textBefore
        rw [List.takeWhile_append_of_pos]
        · simp
        · intro c hc
          have : c ≠ '-' := fun e => hseg (e ▸ hc)
          simpa using this
  have htrim : stringsTrim (List.replicate l ' ' ++ ('#' :: Nat.toDigits 10 N) ++
      List.replicate r ' ') " ".toList = '#' :: Nat.toDigits 10 N := by
    rw [hds]
    have := stringsTrim_spaces l r '#' last init (by decide) (digit_ne_space _ hlast).1
    simpa using this
  rw [getNumber_eq, htb, htrim]
  have hslice : goSliceFrom ('#' :: Nat.toDigits 10 N) 1 = .ok (Nat.toDigits 10 N) := by
    simp [goSliceFrom]
  rw [hslice]
  simp only
  rw [Atoi_decimal intSize hsz _ hdec (by rw [decimalValue_toDigits]; exact hN),
    decimalValue_toDigits]

/-! ## The claims -/

/-- C1. For every bucket listing, the catalog built by `fetchAudioList` has no entry whose
key lacks `-`, and its names are, as a multiset, exactly the listed keys that contain `-`
(so each such key has as many entries as it has occurrences in the listing). -/
theorem catalog_names_are_dashed_keys (env : Env) (henv : env.Conforms)
    (contents : List Content) :
    (∀ a ∈ fetchAudioList env contents, '-' ∈ a.Name) ∧
    ((fetchAudioList env contents).map Audio.Name).Perm
      ((contents.map Content.Key).filter (fun key => decide ('-' ∈ key))) ∧
    (∀ key : GoString, '-' ∈ key →
      (((fetchAudioList env contents).map Audio.Name).filter
          (fun name => decide (name = key))).length =
        ((contents.map Content.Key).filter (fun k => decide (k = key))).length) := by
  have hperm : ((fetchAudioList env contents).map Audio.Name).Perm
      ((contents.map Content.Key).filter (fun key => decide ('-' ∈ key))) := by
    have h := (fetchAudioList_perm env henv contents).map Audio.Name
    rw [List.map_map] at h
    have e : (Audio.Name ∘ fun c : Content =>
        ({ Number := (Atoi env.intSize (textBefore '-' c.Key)).1, Name := c.Key } : Audio))
        = Content.Key := rfl
    rw [e] at h
    have e2 : (contents.filter (fun c => decide ('-' ∈ c.Key))).map Content.Key =
        (contents.map Content.Key).filter (fun key => decide ('-' ∈ key)) := by
      rw [List.filter_map]
      rfl
    rw [e2] at h
    exact h
  refine ⟨fun a ha => (mem_fetchAudioList env henv contents a ha).1, hperm, ?_⟩
  intro key hkey
  rw [(hperm.filter (fun name => decide (name = key))).length_eq, List.filter_filter]
  congr 1
  apply List.filter_congr
  intro k _
  by_cases hk : k = key
  · subst hk
    simp [hkey]
  · simp [hk]

/-- C1, on a listing of three keys. -/
theorem catalog_names_are_dashed_keys_witness :
    refEnv.Conforms ∧
    ((fetchAudioList refEnv
        [contentOfKey "2-2023-02-01-john-roe.mp3", contentOfKey "logo.png",
          contentOfKey "1-2023-01-01-jane-doe.mp3"]).map Audio.Name).Perm
      ((([contentOfKey "2-2023-02-01-john-roe.mp3", contentOfKey "logo.png",
          contentOfKey "1-2023-01-01-jane-doe.mp3"]).map Content.Key).filter
        (fun key => decide ('-' ∈ key))) :=
  ⟨refEnv_conforms,
    (catalog_names_are_dashed_keys refEnv refEnv_conforms
      [contentOfKey "2-2023-02-01-john-roe.mp3", contentOfKey "logo.png",
        contentOfKey "1-2023-01-01-jane-doe.mp3"]).2.1⟩

/-- C3. For every bucket listing, in any order, the catalog returned by `fetchAudioList`
is sorted ascending by `Number`: the entry at position `i` has a number at most that of
the entry at any later position `j`. -/
theorem catalog_sorted_ascending (env : Env) (henv : env.Conforms)
    (contents : List Content) (i j : Nat) (hij : i < j)
    (hj : j < (fetchAudioList env contents).length) :
    ((fetchAudioList env contents).get ⟨i, lt_trans hij hj⟩).Number ≤
      ((fetchAudioList env contents).get ⟨j, hj⟩).Number := by
  have h := List.pairwise_iff_get.1 (fetchAudioList_sorted env henv contents)
  exact h ⟨i, lt_trans hij hj⟩ ⟨j, hj⟩ hij

/-- C3, on an unsorted listing of three keys, at positions 0 and 2. -/
theorem catalog_sorted_ascending_witness :
    refEnv.Conforms ∧ (∃ (hj : 2 < (fetchAudioList refEnv
        [contentOfKey "3-c-d.mp3", contentOfKey "1-a-b.mp3", contentOfKey "2-q-r.mp3"]).length),
      ((fetchAudioList refEnv
        [contentOfKey "3-c-d.mp3", contentOfKey "1-a-b.mp3", contentOfKey "2-q-r.mp3"]).get
          ⟨0, lt_trans (by decide) hj⟩).Number ≤
      ((fetchAudioList refEnv
        [contentOfKey "3-c-d.mp3", contentOfKey "1-a-b.mp3", contentOfKey "2-q-r.mp3"]).get
          ⟨2, hj⟩).Number) :=
  ⟨refEnv_conforms, ⟨by decide,
    catalog_sorted_ascending refEnv refEnv_conforms
      [contentOfKey "3-c-d.mp3", contentOfKey "1-a-b.mp3", contentOfKey "2-q-r.mp3"]
      0 2 (by decide) (by decide)⟩⟩

/-- C2, as stated, fails on a 64-bit platform.  The key `9223372036854775808-jane-doe.mp3`
has the decimal numeral `9223372036854775808` before its first `-`, and its entry gets the
number `9223372036854775807`; the key `99999999999999999999x-jane-doe.mp3` has a text
before its first `-` that is no numeral, and its entry gets `9223372036854775807`, not
`0`. -/
theorem catalog_number_counterexample :
    fetchAudioList refEnv [contentOfKey "9223372036854775808-jane-doe.mp3"] =
        [{ Number := 9223372036854775807,
           Name := "9223372036854775808-jane-doe.mp3".toList }] ∧
    IsDecimal (textBefore '-' "9223372036854775808-jane-doe.mp3".toList) ∧
    decimalValue (textBefore '-' "9223372036854775808-jane-doe.mp3".toList) =
        9223372036854775808 ∧
    fetchAudioList refEnv [contentOfKey "99999999999999999999x-jane-doe.mp3"] =
        [{ Number := 9223372036854775807,
           Name := "99999999999999999999x-jane-doe.mp3".toList }] ∧
    ¬ IsDecimal (unsignedPart (textBefore '-' "99999999999999999999x-jane-doe.mp3".toList)) := by
  decide

/-- C2, amended.  Every listed key that contains `-` has an entry in the catalog, and for
every entry of the catalog, with `u` the text of its key before the first `-` less an
optional leading `+`, and a decimal numeral being a non-empty run of decimal digits:
* if `u` is a decimal numeral whose value is below `2^(intSize-1)`, `Number` is that value;
* if `u` is not a decimal numeral (it is empty or holds a byte that is no decimal digit)
  and the digits at its start denote less than `2^intSize`, `Number` is `0`;
* if `u` is a decimal numeral whose value is `2^(intSize-1)` or more, or if the digits at
  the start of `u` denote `2^intSize` or more, `Number` is the largest `int`,
  `2^(intSize-1) - 1`. -/
theorem catalog_number_of_key (env : Env) (henv : env.Conforms) (contents : List Content) :
    (∀ c ∈ contents, '-' ∈ c.Key → ∃ a ∈ fetchAudioList env contents, a.Name = c.Key) ∧
    (∀ a ∈ fetchAudioList env contents,
      (IsDecimal (unsignedPart (textBefore '-' a.Name)) →
        decimalValue (unsignedPart (textBefore '-' a.Name)) < 2 ^ (env.intSize - 1) →
        a.Number = decimalValue (unsignedPart (textBefore '-' a.Name))) ∧
      (¬ IsDecimal (unsignedPart (textBefore '-' a.Name)) →
        decimalValue ((unsignedPart (textBefore '-' a.Name)).takeWhile Char.isDigit)
          < 2 ^ env.intSize →
        a.Number = 0) ∧
      ((IsDecimal (unsignedPart (textBefore '-' a.Name)) ∧
          2 ^ (env.intSize - 1) ≤ decimalValue (unsignedPart (textBefore '-' a.Name))) ∨
        2 ^ env.intSize ≤
          decimalValue ((unsignedPart (textBefore '-' a.Name)).takeWhile Char.isDigit) →
        a.Number = ((2 ^ (env.intSize - 1) - 1 : Nat) : Int))) := by
  constructor
  · intro c hc hdash
    have hmem : ({ Number := (Atoi env.intSize (textBefore '-' c.Key)).1, Name := c.Key } : Audio)
        ∈ fetchAudioList env contents := by
      rw [(fetchAudioList_perm env henv contents).mem_iff, List.mem_map]
      exact ⟨c, List.mem_filter.2 ⟨hc, by simpa using hdash⟩, rfl⟩
    exact ⟨_, hmem, rfl⟩
  · intro a ha
    obtain ⟨_, _, hnum⟩ := mem_fetchAudioList env henv contents a ha
    have hnd := textBefore_not_mem a.Name '-'
    refine ⟨fun hu hv => ?_, fun hu hv => ?_, fun h => ?_⟩
    · rw [hnum, Atoi_numeral env.intSize henv.intSize_eq _ hu hv]
    · rw [hnum, Atoi_not_numeral env.intSize henv.intSize_eq _ hnd hu hv]
    · rw [hnum, Atoi_range env.intSize henv.intSize_eq _ hnd h]

/-- C2, amended, on a listing with a numbered key, a key without number and a key without
`-`: the first gets the number 12, the second the number 0. -/
theorem catalog_number_of_key_witness :
    refEnv.Conforms ∧
    ({ Number := 12, Name := "12-2023-01-01-jane-doe.mp3".toList } : Audio) ∈
      fetchAudioList refEnv
        [contentOfKey "12-2023-01-01-jane-doe.mp3", contentOfKey "intro-jane-doe.mp3",
          contentOfKey "logo.png"] ∧
    IsDecimal (unsignedPart (textBefore '-' "12-2023-01-01-jane-doe.mp3".toList)) ∧
    decimalValue (unsignedPart (textBefore '-' "12-2023-01-01-jane-doe.mp3".toList)) <
      2 ^ (refEnv.intSize - 1) ∧
    (12 : Int) = decimalValue (unsignedPart (textBefore '-' "12-2023-01-01-jane-doe.mp3".toList)) :=
  ⟨refEnv_conforms, by decide, by decide, by decide,
    ((catalog_number_of_key refEnv refEnv_conforms
      [contentOfKey "12-2023-01-01-jane-doe.mp3", contentOfKey "intro-jane-doe.mp3",
        contentOfKey "logo.png"]).2
      { Number := 12, Name := "12-2023-01-01-jane-doe.mp3".toList } (by decide)).1
      (by decide) (by decide)⟩

/-- C4, as stated, fails on a 64-bit platform for `N = 2^63`: the title
`#9223372036854775808 - Jane Doe - Episode Title` follows the convention and `getNumber`
returns `0` with a range error. -/
theorem getNumber_overflow_counterexample :
    getNumber 64 ('#' :: Nat.toDigits 10 9223372036854775808 ++
        " - Jane Doe - Episode Title".toList) = .ok (0, some .ErrRange) ∧
    '#' :: Nat.toDigits 10 9223372036854775808 ++ " - Jane Doe - Episode Title".toList =
      "#9223372036854775808 - Jane Doe - Episode Title".toList := by
  decide

/-- C4, amended.  For every natural number `N` below `2^(intSize-1)` (that is, within the
range of `int`) and every title made of spaces, `#`, the decimal digits of `N`, spaces, and
then nothing or a `-` followed by any text, `getNumber` returns `N` with no error; in
particular `getNumber("#3 - Jane Doe - Episode Title") = 3`. -/
theorem getNumber_convention (intSize : Nat) (hsz : intSize = 32 ∨ intSize = 64) :
    (∀ (N l r : Nat) (rest : GoString), N < 2 ^ (intSize - 1) →
      (rest = [] ∨ rest.head? = some '-') →
      getNumber intSize
        (List.replicate l ' ' ++ ('#' :: Nat.toDigits 10 N) ++ List.replicate r ' ' ++ rest)
        = .ok ((N : Int), none)) ∧
    getNumber intSize "#3 - Jane Doe - Episode Title".toList = .ok (3, none) := by
  refine ⟨fun N l r rest hN hrest => getNumber_of_title_shape intSize hsz N l r rest hN hrest, ?_⟩
  have h := getNumber_of_title_shape intSize hsz 3 0 1 "- Jane Doe - Episode Title".toList
    (by rcases hsz with rfl | rfl <;> norm_num) (Or.inr rfl)
  exact h

/-- C4, amended, on the title `#42 - Jane Doe - Episode Title` of a 64-bit platform. -/
theorem getNumber_convention_witness :
    getNumber 64 (List.replicate 0 ' ' ++ ('#' :: Nat.toDigits 10 42) ++ List.replicate 1 ' '
        ++ "- Jane Doe - Episode Title".toList) = .ok (42, none) ∧
    List.replicate 0 ' ' ++ ('#' :: Nat.toDigits 10 42) ++ List.replicate 1 ' '
        ++ "- Jane Doe - Episode Title".toList = "#42 - Jane Doe - Episode Title".toList :=
  ⟨(getNumber_convention 64 (Or.inr rfl)).1 42 0 1 "- Jane Doe - Episode Title".toList
      (by norm_num) (Or.inr rfl), by decide⟩

/-- C5. For every audio name whose part before the first `.` splits on `-` into at least
two segments, `getGuestName` returns the last two of those segments joined by a single `-`,
and no error; in particular `getGuestName("3-2023-01-01-jane-doe.mp3") = "jane-doe"`. -/
theorem getGuestName_last_two_segments :
    (∀ (audio : GoString) (pre : List GoString) (a b : GoString),
      stringsSplit (textBefore '.' audio) '-' = pre ++ [a, b] →
      getGuestName audio = .ok (a ++ "-".toList ++ b, none)) ∧
    (∀ audio : GoString, 2 ≤ (stringsSplit (textBefore '.' audio) '-').length →
      getGuestName audio = .ok ("-".toList.intercalate
        ((stringsSplit (textBefore '.' audio) '-').drop
          ((stringsSplit (textBefore '.' audio) '-').length - 2)), none)) ∧
    getGuestName "3-2023-01-01-jane-doe.mp3".toList = .ok ("jane-doe".toList, none) := by
  refine ⟨fun audio pre a b h => getGuestName_of_words audio pre a b h, ?_, by decide⟩
  intro audio h
  obtain ⟨pre, a, b, hw⟩ := exists_last_two _ h
  rw [getGuestName_of_words audio pre a b hw, hw]
  simp [List.intercalate]

/-- C5, on the audio name `12-2023-05-06-john-roe.mp3`. -/
theorem getGuestName_last_two_segments_witness :
    stringsSplit (textBefore '.' "12-2023-05-06-john-roe.mp3".toList) '-' =
      ["12".toList, "2023".toList, "05".toList, "06".toList] ++
        ["john".toList, "roe".toList] ∧
    getGuestName "12-2023-05-06-john-roe.mp3".toList = .ok ("john-roe".toList, none) :=
  ⟨by decide,
    getGuestName_last_two_segments.1 "12-2023-05-06-john-roe.mp3".toList
      ["12".toList, "2023".toList, "05".toList, "06".toList] "john".toList "roe".toList
      (by decide)⟩

/-- C10. For every audio name, the index accesses of `getGuestName` are all in bounds (it
returns instead of panicking with index out of range) if and only if the part of the name
before its first `.` contains `-`; the key `a.b-c` contains `-`, so it enters the catalog,
and `getGuestName` indexes out of bounds on it; `getGuestName` never returns a non-nil
error. -/
theorem getGuestName_in_bounds_iff :
    (∀ audio : GoString,
      (∃ r, getGuestName audio = .ok r) ↔ '-' ∈ textBefore '.' audio) ∧
    (∀ audio : GoString,
      getGuestName audio = .error .indexOutOfRange ↔ '-' ∉ textBefore '.' audio) ∧
    (∀ (audio : GoString) (r : GoString × Option NumError),
      getGuestName audio = .ok r → r.2 = none) ∧
    fetchAudioList refEnv [contentOfKey "a.b-c"] = [{ Number := 0, Name := "a.b-c".toList }] ∧
    getGuestName "a.b-c".toList = .error .indexOutOfRange := by
  have key : ∀ audio : GoString,
      ('-' ∈ textBefore '.' audio → ∃ r, getGuestName audio = .ok r ∧ r.2 = none) ∧
      ('-' ∉ textBefore '.' audio → getGuestName audio = .error .indexOutOfRange) := by
    intro audio
    constructor
    · intro h
      obtain ⟨pre, a, b, hw⟩ := exists_last_two _
        ((two_le_length_stringsSplit (textBefore '.' audio) '-').2 h)
      exact ⟨_, getGuestName_of_words audio pre a b hw, rfl⟩
    · intro h
      apply getGuestName_of_single
      by_contra hlen
      exact h ((two_le_length_stringsSplit (textBefore '.' audio) '-').1 (by omega))
  refine ⟨fun audio => ⟨?_, ?_⟩, fun audio => ⟨?_, ?_⟩, ?_, by decide, by decide⟩
  · rintro ⟨r, hr⟩
    by_contra h
    rw [(key audio).2 h] at hr
    simp at hr
  · intro h
    obtain ⟨r, hr, _⟩ := (key audio).1 h
    exact ⟨r, hr⟩
  · intro herr h
    obtain ⟨r, hr, _⟩ := (key audio).1 h
    rw [herr] at hr
    simp at hr
  · exact (key audio).2
  · intro audio r hr
    by_cases h : '-' ∈ textBefore '.' audio
    · obtain ⟨r2, hr2, hn⟩ := (key audio).1 h
      rw [hr] at hr2
      injection hr2 with e
      rw [e]
      exact hn
    · rw [(key audio).2 h] at hr
      simp at hr

/-- C10, on the audio name `3-2023-01-01-jane-doe.mp3`, whose part before the first `.`
contains `-`. -/
theorem getGuestName_in_bounds_iff_witness :
    '-' ∈ textBefore '.' "3-2023-01-01-jane-doe.mp3".toList ∧
    (∃ r, getGuestName "3-2023-01-01-jane-doe.mp3".toList = .ok r) ∧
    getGuestName "3-2023-01-01-jane-doe.mp3".toList = .ok ("jane-doe".toList, none) ∧
    ("jane-doe".toList, (none : Option NumError)).2 = none :=
  ⟨by decide,
    (getGuestName_in_bounds_iff.1 "3-2023-01-01-jane-doe.mp3".toList).2 (by decide),
    by decide,
    getGuestName_in_bounds_iff.2.2.1 "3-2023-01-01-jane-doe.mp3".toList
      ("jane-doe".toList, none) (by decide)⟩

/-! ## Lemmas on `strings.ReplaceAll` -/

theorem stringsReplaceAll_newline (s : GoString) :
    stringsReplaceAll s '\n' "\n\n".toList = doubleNewlines s := by
  induction s with
  | nil => rfl
  | cons c cs ih =>
    by_cases hc : c = '\n'
    · subst hc
      simp only [stringsReplaceAll, if_true, ih]
      rfl
    · simp only [stringsReplaceAll, hc, if_false, ih]
      simp [doubleNewlines, List.flatMap_cons, hc]

theorem stringsReplaceAll_run (k : Nat) :
    stringsReplaceAll (List.replicate k '\n') '\n' "\n\n".toList =
      List.replicate (2 * k) '\n' := by
  induction k with
  | zero => rfl
  | succ k ih =>
    rw [List.replicate_succ]
    simp only [stringsReplaceAll, if_true, ih]
    have : 2 * (k + 1) = (2 * k + 1) + 1 := by ring
    rw [this, List.replicate_succ, List.replicate_succ]
    rfl

theorem reconcileItem_content (env : Env) (audioList : List Audio) (item : Item)
    (e : Episode) (h : reconcileItem env audioList item = .ok e) :
    e.Content = stringsReplaceAll item.Description '\n' "\n\n".toList := by
  rw [reconcileItem_eq] at h
  split at h
  · simp at h
  · split at h
    · simp at h
    · split at h
      · simp at h
      · split at h
        · simp at h
        · injection h with h
          rw [← h]

/-- C9. For every feed item that is reconciled, the `Content` of its episode is the item's
`Description` with every newline byte replaced by two newline bytes; the description
`"line1\nline2"` gives `"line1\n\nline2"`, and a run of `k` newlines becomes `2k`
newlines. -/
theorem content_doubles_newlines :
    (∀ (env : Env) (audioList : List Audio) (item : Item) (e : Episode),
      reconcileItem env audioList item = .ok e → e.Content = doubleNewlines item.Description) ∧
    (∀ (env : Env) (audioList : List Audio) (items : List Item) (episodes : List Episode),
      reconcileLoop env audioList items [] = .ok episodes →
      episodes.map Episode.Content = items.map (fun item => doubleNewlines item.Description)) ∧
    stringsReplaceAll "line1\nline2".toList '\n' "\n\n".toList = "line1\n\nline2".toList ∧
    (∀ k : Nat, stringsReplaceAll (List.replicate k '\n') '\n' "\n\n".toList =
      List.replicate (2 * k) '\n') := by
  refine ⟨?_, ?_, by decide, stringsReplaceAll_run⟩
  · intro env audioList item e h
    rw [reconcileItem_content env audioList item e h, stringsReplaceAll_newline]
  · intro env audioList items episodes h
    obtain ⟨new, h1, h2⟩ := reconcileLoop_append env audioList items [] episodes h
    rw [List.nil_append] at h1
    subst h1
    clear h
    induction h2 with
    | nil => rfl
    | cons hr _ ih =>
      simp only [List.map_cons, ih]
      rw [reconcileItem_content env audioList _ _ hr, stringsReplaceAll_newline]

/-- C9, on a feed item with the description `"line1\nline2"`. -/
theorem content_doubles_newlines_witness :
    reconcileItem refEnv [{ Number := 0, Name := "0-2023-01-01-jane-doe.mp3".toList }]
        (itemOf "#0 - Jane Doe - Pilot" "line1\nline2" "Mon, 02 Jan 2006 15:04:05 -0700") =
      .ok { Number := 0, Title := "#0 - Jane Doe - Pilot".toList, Date := "2006-01-02".toList,
            Guid := [], Guest := "jane-doe".toList,
            Audio := "0-2023-01-01-jane-doe.mp3".toList,
            Description := "#0 - Jane Doe - Pilot".toList,
            Content := "line1\n\nline2".toList } ∧
    "line1\n\nline2".toList = doubleNewlines "line1\nline2".toList :=
  ⟨by decide,
    content_doubles_newlines.1 refEnv
      [{ Number := 0, Name := "0-2023-01-01-jane-doe.mp3".toList }]
      (itemOf "#0 - Jane Doe - Pilot" "line1\nline2" "Mon, 02 Jan 2006 15:04:05 -0700")
      { Number := 0, Title := "#0 - Jane Doe - Pilot".toList, Date := "2006-01-02".toList,
        Guid := [], Guest := "jane-doe".toList,
        Audio := "0-2023-01-01-jane-doe.mp3".toList,
        Description := "#0 - Jane Doe - Pilot".toList,
        Content := "line1\n\nline2".toList }
      (by decide)⟩

/-! ## Lemmas on `main` -/

theorem getNumber_error_zero (intSize : Nat) (title : GoString) (n : Int) (e : NumError)
    (h : getNumber intSize title = .ok (n, some e)) : n = 0 := by
  rw [getNumber_eq] at h
  split at h
  · simp at h
  · split at h
    · injection h with h
      exact (Prod.mk.inj h).1.symm
    · simp at h

theorem goIndex_of_le {α : Type} (xs : List α) (n : Int) (h : (xs.length : Int) ≤ n) :
    goIndex xs n = .error .indexOutOfRange := by
  have hn : n = ((n.toNat : Nat) : Int) := by omega
  rw [hn]
  exact goIndex_ge xs n.toNat (by omega)

theorem main_of_error (env : Env) (episodeDir : GoString) (limit : Nat)
    (contents : List Content) (items : List Item) (p : Panic)
    (h : reconcileLoop env (fetchAudioList env contents) items [] = .error p) :
    main env episodeDir limit contents items = { written := [], panic := some p } := by
  unfold main
  simp only [h]

theorem main_of_ok (env : Env) (episodeDir : GoString) (limit : Nat)
    (contents : List Content) (items : List Item) (episodes : List Episode)
    (h : reconcileLoop env (fetchAudioList env contents) items [] = .ok episodes) :
    main env episodeDir limit contents items =
      { written := ((env.sortSort Episodes.Less episodes).take limit).map
          (fun e => { path := episodePath episodeDir e, content := renderTemplate e }),
        panic := none } := by
  unfold main
  simp only [h, renderLoop_eq, Nat.sub_zero, List.nil_append]

/-- The body of the loop panics on an item whose number is no index of the catalog; the
panic is that of the catalog lookup when the date of the item parses. -/
theorem reconcileItem_out_of_range (env : Env) (audioList : List Audio) (item : Item)
    (n : Int) (e : Option NumError) (hn : getNumber env.intSize item.Title = .ok (n, e))
    (hlen : (audioList.length : Int) ≤ n) :
    (∃ p, reconcileItem env audioList item = .error p) ∧
    (∀ date, env.timeParse item.PubDate = some date →
      reconcileItem env audioList item = .error .indexOutOfRange) := by
  rw [reconcileItem_eq, hn]
  simp only
  cases ht : env.timeParse item.PubDate with
  | none => exact ⟨⟨_, rfl⟩, fun date h => by simp at h⟩
  | some date =>
    simp [goIndex_of_le audioList n hlen]

/-- C6, as stated, fails.  The title `Intro - Jane Doe` has no episode number and
`getNumber` returns an error for it; with the catalog of the single key
`0-2023-01-01-jane-doe.mp3` the run does not abort: the item becomes episode `0` and the
file `content/episode/0.md` is written. -/
theorem unparseable_title_counterexample :
    getNumber refEnv.intSize
        (itemOf "Intro - Jane Doe" "line1\nline2" "Mon, 02 Jan 2006 15:04:05 -0700").Title =
      .ok (0, some .ErrSyntax) ∧
    (main refEnv "content/episode".toList 5 [contentOfKey "0-2023-01-01-jane-doe.mp3"]
        [itemOf "Intro - Jane Doe" "line1\nline2" "Mon, 02 Jan 2006 15:04:05 -0700"]).panic =
      none ∧
    (main refEnv "content/episode".toList 5 [contentOfKey "0-2023-01-01-jane-doe.mp3"]
        [itemOf "Intro - Jane Doe" "line1\nline2"
          "Mon, 02 Jan 2006 15:04:05 -0700"]).written.map FileWrite.path =
      ["content/episode/0.md".toList] := by
  decide

/-- C6, amended.  For every feed item whose title makes `getNumber` return an error, the
number returned is `0` and `main` drops the error: the item is reconciled as episode `0`
with the first entry of the catalog.  The run aborts at that item only when its date does
not parse, when the catalog is empty (index out of range) or when `getGuestName` panics on
the name of the first entry; otherwise the item yields an episode with `Number = 0`. -/
theorem unparseable_title_is_episode_zero (env : Env) (audioList : List Audio) (item : Item)
    (n : Int) (e : NumError)
    (h : getNumber env.intSize item.Title = .ok (n, some e)) :
    n = 0 ∧
    reconcileItem env audioList item =
      match env.timeParse item.PubDate with
      | none => .error .timeParseError
      | some date =>
        match audioList with
        | [] => .error .indexOutOfRange
        | audio :: _ =>
          match getGuestName audio.Name with
          | .error p => .error p
          | .ok (guest, _) =>
            .ok { Number := 0
                  Title := item.Title
                  Date := date
                  Guid := item.Guid
                  Guest := guest
                  Audio := audio.Name
                  Description := item.Title
                  Content := stringsReplaceAll item.Description '\n' "\n\n".toList } := by
  have h0 := getNumber_error_zero env.intSize item.Title n e h
  subst h0
  refine ⟨rfl, ?_⟩
  rw [reconcileItem_eq, h]
  simp only
  cases env.timeParse item.PubDate with
  | none => rfl
  | some date =>
    cases audioList with
    | nil => rfl
    | cons audio rest =>
      simp only [goIndex_zero_cons]

/-- C6, amended, on the title `Intro - Jane Doe` and a catalog of one entry. -/
theorem unparseable_title_is_episode_zero_witness :
    getNumber refEnv.intSize
        (itemOf "Intro - Jane Doe" "line1\nline2" "Mon, 02 Jan 2006 15:04:05 -0700").Title =
      .ok (0, some .ErrSyntax) ∧
    reconcileItem refEnv [{ Number := 0, Name := "0-2023-01-01-jane-doe.mp3".toList }]
        (itemOf "Intro - Jane Doe" "line1\nline2" "Mon, 02 Jan 2006 15:04:05 -0700") =
      .ok { Number := 0, Title := "Intro - Jane Doe".toList, Date := "2006-01-02".toList,
            Guid := [], Guest := "jane-doe".toList,
            Audio := "0-2023-01-01-jane-doe.mp3".toList,
            Description := "Intro - Jane Doe".toList,
            Content := "line1\n\nline2".toList } :=
  ⟨by decide,
    (unparseable_title_is_episode_zero refEnv
      [{ Number := 0, Name := "0-2023-01-01-jane-doe.mp3".toList }]
      (itemOf "Intro - Jane Doe" "line1\nline2" "Mon, 02 Jan 2006 15:04:05 -0700")
      0 .ErrSyntax (by decide)).2.trans (by decide)⟩

/-- C7, as stated, fails.  With an empty catalog the number `5` of the title
`#5 - Jane Doe - Episode Title` is no index of the catalog, yet a run whose feed holds that
item without publication date aborts with the error of `time.Parse`, and a run whose feed
holds an item with an empty title before it aborts with `slice bounds out of range`:
neither abort is an index-out-of-range failure. -/
theorem out_of_range_number_counterexample :
    getNumber refEnv.intSize (itemOf "#5 - Jane Doe - Episode Title" "" "").Title =
      .ok (5, none) ∧
    (fetchAudioList refEnv []).length = 0 ∧
    main refEnv "content/episode".toList 5 []
        [itemOf "#5 - Jane Doe - Episode Title" "" ""] =
      { written := [], panic := some .timeParseError } ∧
    main refEnv "content/episode".toList 5 []
        [itemOf "" "" "Mon, 02 Jan 2006 15:04:05 -0700",
          itemOf "#5 - Jane Doe - Episode Title" "" "Mon, 02 Jan 2006 15:04:05 -0700"] =
      { written := [], panic := some .sliceBoundsOutOfRange } := by
  decide

/-- C7, amended.  For every feed and catalog in which the number `getNumber` gives for some
item's title is at least the length of the catalog, the run aborts during reconciliation
and no episode file is written; the abort is the index-out-of-range failure of the catalog
lookup when the items before that one are reconciled and the date of that one parses. -/
theorem out_of_range_number_aborts (env : Env) (episodeDir : GoString) (limit : Nat)
    (contents : List Content) (items : List Item) :
    (∀ item ∈ items, ∀ (n : Int) (e : Option NumError),
      getNumber env.intSize item.Title = .ok (n, e) →
      ((fetchAudioList env contents).length : Int) ≤ n →
      ∃ p, reconcileLoop env (fetchAudioList env contents) items [] = .error p ∧
        main env episodeDir limit contents items = { written := [], panic := some p }) ∧
    (∀ (pre : List Item) (item : Item) (post : List Item) (new : List Episode) (n : Int)
        (e : Option NumError) (date : GoString),
      items = pre ++ item :: post →
      List.Forall₂ (fun it ep => reconcileItem env (fetchAudioList env contents) it = .ok ep)
        pre new →
      getNumber env.intSize item.Title = .ok (n, e) →
      ((fetchAudioList env contents).length : Int) ≤ n →
      env.timeParse item.PubDate = some date →
      main env episodeDir limit contents items =
        { written := [], panic := some .indexOutOfRange }) := by
  constructor
  · intro item hmem n e hn hlen
    obtain ⟨⟨p, hp⟩, _⟩ := reconcileItem_out_of_range env _ item n e hn hlen
    obtain ⟨q, hq⟩ := reconcileLoop_error_of_mem env _ items [] item hmem p hp
    exact ⟨q, hq, main_of_error env episodeDir limit contents items q hq⟩
  · intro pre item post new n e date hitems hpre hn hlen hdate
    have hitem := (reconcileItem_out_of_range env _ item n e hn hlen).2 date hdate
    have hloop := reconcileLoop_first_error env _ pre item post [] new _ hpre hitem
    rw [← hitems] at hloop
    exact main_of_error env episodeDir limit contents items _ hloop

/-- C7, amended, on a feed of one item numbered `5` and a catalog of one entry. -/
theorem out_of_range_number_aborts_witness :
    itemOf "#5 - Jane Doe - Episode Title" "" "Mon, 02 Jan 2006 15:04:05 -0700" ∈
      [itemOf "#5 - Jane Doe - Episode Title" "" "Mon, 02 Jan 2006 15:04:05 -0700"] ∧
    main refEnv "content/episode".toList 5 [contentOfKey "0-2023-01-01-jane-doe.mp3"]
        [itemOf "#5 - Jane Doe - Episode Title" "" "Mon, 02 Jan 2006 15:04:05 -0700"] =
      { written := [], panic := some .indexOutOfRange } :=
  ⟨by decide,
    (out_of_range_number_aborts refEnv "content/episode".toList 5
      [contentOfKey "0-2023-01-01-jane-doe.mp3"]
      [itemOf "#5 - Jane Doe - Episode Title" "" "Mon, 02 Jan 2006 15:04:05 -0700"]).2
      [] (itemOf "#5 - Jane Doe - Episode Title" "" "Mon, 02 Jan 2006 15:04:05 -0700") []
      [] 5 none "2006-01-02".toList rfl List.Forall₂.nil (by decide) (by decide)
      (by decide)⟩

theorem sorted_numbers_of_perm (env : Env) (henv : env.Conforms) (episodes : List Episode)
    (target : List Int) (hsorted : target.Pairwise (fun a b => a ≤ b))
    (hperm : (episodes.map Episode.Number).Perm target) :
    (env.sortSort Episodes.Less episodes).map Episode.Number = target := by
  have h1 : ((env.sortSort Episodes.Less episodes).map Episode.Number).Perm target :=
    ((henv.sort_perm Episodes.Less episodes).map Episode.Number).trans hperm
  have h2 : ((env.sortSort Episodes.Less episodes).map Episode.Number).Pairwise
      (fun a b => a ≤ b) := by
    rw [List.pairwise_map]
    exact henv.sort_sorted (fun e : Episode => e.Number) episodes
  exact List.eq_of_perm_of_sorted h1 h2 hsorted

/-- C8. For every feed that is reconciled into the episodes `episodes` and every limit, the
run does not panic and writes exactly the first `min(limit, length)` episodes of the
collection sorted ascending by `Number` (a permutation of `episodes`), in that order, each
to the path `<episodeDir>/<Number>.md`; in particular, when the episodes are numbered
1 to 6 and the limit is 5, exactly the 5 files numbered 1 to 5 are written. -/
theorem render_writes_first_limit (env : Env) (henv : env.Conforms) (episodeDir : GoString)
    (limit : Nat) (contents : List Content) (items : List Item) (episodes : List Episode)
    (hrec : reconcileLoop env (fetchAudioList env contents) items [] = .ok episodes) :
    (env.sortSort Episodes.Less episodes).Perm episodes ∧
    (env.sortSort Episodes.Less episodes).Pairwise (fun a b => a.Number ≤ b.Number) ∧
    (main env episodeDir limit contents items).panic = none ∧
    (main env episodeDir limit contents items).written =
      ((env.sortSort Episodes.Less episodes).take limit).map
        (fun e => { path := episodeDir ++ "/".toList ++ formatInt e.Number ++ ".md".toList,
                    content := renderTemplate e }) ∧
    (main env episodeDir limit contents items).written.length = min limit episodes.length ∧
    ((episodes.map Episode.Number).Perm [1, 2, 3, 4, 5, 6] → limit = 5 →
      (main env episodeDir limit contents items).written.map FileWrite.path =
        [episodeDir ++ "/1.md".toList, episodeDir ++ "/2.md".toList,
          episodeDir ++ "/3.md".toList, episodeDir ++ "/4.md".toList,
          episodeDir ++ "/5.md".toList]) := by
  have hmain := main_of_ok env episodeDir limit contents items episodes hrec
  have hperm := henv.sort_perm Episodes.Less episodes
  refine ⟨hperm, henv.sort_sorted (fun e : Episode => e.Number) episodes, ?_, ?_, ?_, ?_⟩
  · rw [hmain]
  · rw [hmain]
    rfl
  · rw [hmain]
    simp [hperm.length_eq]
  · intro hnum hlimit
    have hs := sorted_numbers_of_perm env henv episodes [1, 2, 3, 4, 5, 6] (by decide) hnum
    rw [hmain, hlimit]
    have e1 : (((env.sortSort Episodes.Less episodes).take 5).map
        (fun e => ({ path := episodePath episodeDir e, content := renderTemplate e } :
          FileWrite))).map FileWrite.path =
        (((env.sortSort Episodes.Less episodes).map Episode.Number).take 5).map
          (fun n => episodeDir ++ "/".toList ++ formatInt n ++ ".md".toList) := by
      rw [List.map_map, ← List.map_take, List.map_map]
      rfl
    simp only [e1, hs]
    simp [formatInt, Nat.toDigits, Nat.toDigitsCore, Nat.digitChar]

/-- C8, on the sample feed of six items numbered 1 to 6, the latest first, the sample
catalog of seven entries and the limit 5. -/
theorem render_writes_first_limit_witness :
    refEnv.Conforms ∧
    reconcileLoop refEnv (fetchAudioList refEnv sampleContents) sampleItems [] =
      .ok sampleEpisodes ∧
    (main refEnv "content/episode".toList 5 sampleContents sampleItems).written.map
        FileWrite.path =
      ["content/episode/1.md".toList, "content/episode/2.md".toList,
        "content/episode/3.md".toList, "content/episode/4.md".toList,
        "content/episode/5.md".toList] :=
  ⟨refEnv_conforms, by decide,
    (render_writes_first_limit refEnv refEnv_conforms "content/episode".toList 5
      sampleContents sampleItems sampleEpisodes (by decide)).2.2.2.2.2 (by decide) rfl⟩

end Exporter
